import Mathlib

/-!
Verification of the pagliascii AsciiDoc preprocessor and parser.

The definitions below are a shallow embedding of the Rust sources:
  * `src/src/source.rs`  — the preprocessor (`Include::next_line`,
    `Preprocessor::amalgamate`, `parse_pp_directive`, `check_targets_active`,
    `attr_list`, `attr_list_ifdef`, `push_line`, `Preprocessor::new`);
  * `src/src/parser.rs`  — `parse_doc_attribute`, `parse_attribute`,
    `parse_attribute_list`, `parse_callout`, `parse_section_title`;
  * `src/src/parser/nom_ext.rs` — the whitespace primitives.

Strings are modelled as `List Char` (`Str`); byte offsets of the Rust code
become character offsets, which agree on the claim-relevant behaviour.
nom parsers become functions `Str → Option (value × Str)` returning the
parsed value and the remaining input; `Option.none` is a nom parse error.
-/

/-- Strings of the model: lists of characters. -/
abbrev Str := List Char

/-- Convert a Lean string literal into the model representation. -/
def str (s : String) : Str := s.data

/-- Rust `nom::bytes::complete::tag t`: `matchTag t s` is true when `t` is a
prefix of `s` (Rust `str::starts_with` for the directive tags). -/
def matchTag : Str → Str → Bool
  | [], _ => true
  | _ :: _, [] => false
  | c :: cs, d :: ds => c == d && matchTag cs ds

/-- Rust `tag t` as a consuming parser: strip the tag from the front or fail. -/
def stripTag (t s : Str) : Option Str :=
  if matchTag t s then some (s.drop t.length) else none

/-- Characters with the Unicode `White_Space` property
(Rust `char::is_whitespace`). -/
def rustWhitespace (c : Char) : Bool :=
  c.val ∈ ([0x09, 0x0A, 0x0B, 0x0C, 0x0D, 0x20, 0x85, 0xA0, 0x1680,
    0x2000, 0x2001, 0x2002, 0x2003, 0x2004, 0x2005, 0x2006, 0x2007,
    0x2008, 0x2009, 0x200A, 0x2028, 0x2029, 0x202F, 0x205F, 0x3000] : List UInt32)

/-- Horizontal whitespace: `nom_ext::ws` takes characters with
`c != '\n' && c.is_whitespace()`. -/
def hwsB (c : Char) : Bool := !(c == '\n') && rustWhitespace c

/-- Rust `nom_ext::take_until("\n")` followed by nothing: returns the text before
the first newline and the rest (starting at the newline); fails when the
input holds no newline. -/
def takeUntilNl (s : Str) : Option (Str × Str) :=
  let rest := s.dropWhile (fun c => !(c == '\n'))
  if rest.isEmpty then none
  else some (s.takeWhile (fun c => !(c == '\n')), rest)

/-- The line splitter used to state line-level properties: `s.split('\n')`
in Rust terms, so `[] ↦ [[]]` and a trailing newline yields a final
empty line. -/
def linesOf : Str → List Str
  | [] => [[]]
  | c :: cs =>
    if c = '\n' then [] :: linesOf cs
    else
      match linesOf cs with
      | [] => [[c]]
      | l :: ls => (c :: l) :: ls

/-- Rust `str::split(c)`: splits on every occurrence of `c`, keeping empty
segments, and maps the empty string to one empty segment. -/
def splitOnChar (c : Char) : Str → List Str
  | [] => [[]]
  | d :: ds =>
    if d = c then [] :: splitOnChar c ds
    else
      match splitOnChar c ds with
      | [] => [[d]]
      | l :: ls => (d :: l) :: ls

/-! ## The attribute map (`src/src/attributes.rs`) -/

/-- Rust `AttributeMap`: a map from attribute name to value.  The preprocessor
only ever queries key membership, so an association list is a faithful
model of the `HashMap`. -/
abbrev AttrMap := List (Str × Str)

/-- Rust `AttributeMap::contains`. -/
def AttrMap.containsKey (m : AttrMap) (k : Str) : Bool :=
  m.any (fun p => p.1 == k)

/-! ## The include source (`Include`, `src/src/source.rs` lines 28–47) -/

/-- Rust `struct Include { source: String, processed: usize }`. -/
structure Include where
  source : Str
  processed : Nat
deriving Repr

/-- Rust `Include::next_line`: `source.get(processed..)?` fails once `processed`
has passed the end; otherwise the next line is everything up to (not
including) the first `'\n'`, the cursor advances past that newline, and a
trailing `'\r'` is stripped from the returned line only. -/
def nextLine? (inc : Include) : Option (Str × Include) :=
  if inc.source.length < inc.processed then none
  else
    let rest := inc.source.drop inc.processed
    let line := rest.takeWhile (fun c => !(c == '\n'))
    let inc' : Include := ⟨inc.source, inc.processed + line.length + 1⟩
    some (if line.getLast? == some '\r' then line.dropLast else line, inc')

/-! ## Preprocessor directives (`src/src/source.rs` lines 210–257) -/

/-- Rust `enum PreprocessorDirective`. -/
inductive PPDirective where
  | includeDir (target : Str) (attributes : Str)
  | ifDef (targets : Str) (inline : Option Str)
  | ifNotDef (targets : Str) (inline : Option Str)
  | ifEval (attrText : Str)
  | endIf (targets : Str)
deriving Repr, DecidableEq

/-- Rust `Preprocessor::attr_list`: `delimited(tag("["), take_till(|c| c == ']'), tag("]"))`.
Returns the bracket body; the remaining input after `]` is discarded by
`parse_pp_directive`, which never uses it. -/
def attr_list (s : Str) : Option Str :=
  match stripTag (str ("[")) s with
  | none => none
  | some s1 =>
    match stripTag (str ("]")) (s1.dropWhile (fun c => !(c == ']'))) with
    | none => none
    | some _ => some (s1.takeWhile (fun c => !(c == ']')))

/-- Rust `preceded(tag(t), take_till1(|c| c == '['))` then `attr_list`, for a
directive tail `s` with the tag already stripped: the target is everything
before the first `'['` and must be non-empty. -/
def dirTail1 (s : Str) : Option (Str × Str) :=
  let tgt := s.takeWhile (fun c => !(c == '['))
  if tgt.isEmpty then none
  else (attr_list (s.dropWhile (fun c => !(c == '[')))).map (fun a => (tgt, a))

/-- Rust `preceded(tag(t), take_till(|c| c == '['))` then `attr_list`: as
`dirTail1` but the target may be empty (`endif::`/`ifeval::`). -/
def dirTail0 (s : Str) : Option (Str × Str) :=
  (attr_list (s.dropWhile (fun c => !(c == '[')))).map
    (fun a => (s.takeWhile (fun c => !(c == '[')), a))

/-- Rust `Preprocessor::attr_list_ifdef`: an empty bracket body means "no inline". -/
def ifdefInline (a : Str) : Option Str := if a.isEmpty then none else some a

/-- Rust `Preprocessor::parse_pp_directive`: a line starting with `[` is never a
directive; otherwise the five alternatives are tried in order.  The five
tags are pairwise non-prefix, so the nom `alt` is equivalent to this
first-matching-tag dispatch. -/
def parse_pp_directive (line : Str) : Option PPDirective :=
  if line.head? = some '[' then none
  else if matchTag (str ("include::")) line then
    (dirTail1 (line.drop 9)).map (fun p => PPDirective.includeDir p.1 p.2)
  else if matchTag (str ("ifdef::")) line then
    (dirTail1 (line.drop 7)).map (fun p => PPDirective.ifDef p.1 (ifdefInline p.2))
  else if matchTag (str ("ifndef::")) line then
    (dirTail1 (line.drop 8)).map (fun p => PPDirective.ifNotDef p.1 (ifdefInline p.2))
  else if matchTag (str ("endif::")) line then
    (dirTail0 (line.drop 7)).map (fun p => PPDirective.endIf p.1)
  else if matchTag (str ("ifeval::")) line then
    (dirTail0 (line.drop 8)).map (fun p => PPDirective.ifEval p.2)
  else none

/-- Rust `Preprocessor::check_targets_active`: the first `+` or `,` (scanning
left to right) selects AND (`+`, every part present) or OR (`,`, some part
present); with neither, the whole string is looked up. -/
def check_targets_active (targets : Str) (attributes : AttrMap) : Bool :=
  match targets.find? (fun c => c == '+' || c == ',') with
  | some c =>
    if c = '+' then (splitOnChar c targets).all (fun t => attributes.containsKey t)
    else (splitOnChar c targets).any (fun t => attributes.containsKey t)
  | none => attributes.containsKey targets

/-- Rust `Preprocessor::parse_doc_attrib`: a stub in the source (`// FIXME`),
it returns `None` for every line. -/
def parse_doc_attrib (_line : Str) : Option (Str × Option Str) := none

/-- Rust `Preprocessor::push_line`: append the line and a newline. -/
def push_line (amalgamated line : Str) : Str := amalgamated ++ line ++ ['\n']

/-! ## Preprocessor state and main loop (`src/src/source.rs` lines 65–185) -/

/-- Rust `enum PreprocessError`. -/
inductive PreprocessError (E : Type) where
  | maxIncludeDepthReached
  | includeError (e : E)
deriving DecidableEq

/-- Rust `struct Preprocessor` (the include callback may fail with `E`). -/
structure PPState (E : Type) where
  amalgamated : Str
  include_stack : List Include
  conditional_stack : List (Str × Bool)
  skipping : Bool
  include_cb : AttrMap → Str → Except E Str
  max_include_depth : Nat
  attribute_map : AttrMap

/-- Outcome of one iteration of the `amalgamate` loop. -/
inductive StepOut (E : Type) where
  | next (st : PPState E)
  | done
  | fail (e : PreprocessError E)

/-- The body of `amalgamate`'s match on the parsed line.  `st` is the state
after `next_line` advanced the top include; `st.include_stack.length`
equals the Rust `n_includes` (the length is unchanged by `next_line`). -/
def ppProcessLine (line : Str) (st : PPState E) : StepOut E :=
  match parse_doc_attrib line with
  | some _ => .next st
  | none =>
  match parse_pp_directive line with
  | some (.endIf _) =>
    match st.conditional_stack with
    | [] => .next st
    | d :: ds =>
      .next { st with conditional_stack := ds,
                      skipping := if d.2 then false else st.skipping }
  | some (.includeDir target _) =>
    if st.skipping then .next st
    else if st.max_include_depth ≤ st.include_stack.length then
      .fail .maxIncludeDepthReached
    else
      match st.include_cb st.attribute_map target with
      | .error e => .fail (.includeError e)
      | .ok source =>
        .next { st with include_stack :=
          ⟨source, 0⟩ ::
            (match st.include_stack with
             | top :: r => if top.source.length ≤ top.processed then r else top :: r
             | [] => []) }
  | some (.ifDef tgs (some l)) =>
    if !st.skipping && check_targets_active tgs st.attribute_map then
      .next { st with amalgamated := push_line st.amalgamated l }
    else .next st
  | some (.ifDef tgs none) =>
    let skipping := !check_targets_active tgs st.attribute_map
    .next { st with
      conditional_stack := (tgs, !st.skipping && skipping) :: st.conditional_stack,
      skipping := st.skipping || skipping }
  | some (.ifNotDef tgs (some l)) =>
    if !st.skipping && !check_targets_active tgs st.attribute_map then
      .next { st with amalgamated := push_line st.amalgamated l }
    else .next st
  | some (.ifNotDef tgs none) =>
    let skipping := check_targets_active tgs st.attribute_map
    .next { st with
      conditional_stack := (tgs, !st.skipping && skipping) :: st.conditional_stack,
      skipping := st.skipping || skipping }
  | some (.ifEval _) => .next st
  | none =>
    if st.skipping then .next st
    else .next { st with amalgamated := push_line st.amalgamated line }

/-- One iteration of the `amalgamate` loop: read a line from the top of the
include stack (popping an exhausted source), stop when the stack is empty. -/
def ppStep (st : PPState E) : StepOut E :=
  match st.include_stack with
  | [] => .done
  | inc :: rest =>
    match nextLine? inc with
    | none => .next { st with include_stack := rest }
    | some (line, inc') => ppProcessLine line { st with include_stack := inc' :: rest }

/-- The `amalgamate` loop, run with explicit fuel (`none` = fuel exhausted;
the Rust loop runs unboundedly). -/
def ppRun : Nat → PPState E → Option (Except (PreprocessError E) (PPState E))
  | 0, _ => none
  | fuel + 1, st =>
    match ppStep st with
    | .done => some (.ok st)
    | .fail e => some (.error e)
    | .next st' => ppRun fuel st'

/-- Rust `Preprocessor::new`: empty output, the root source on the stack,
`max_include_depth = 64`. -/
def mkPreprocessor (source : Str) (cb : AttrMap → Str → Except E Str)
    (attributes : AttrMap) : PPState E :=
  { amalgamated := []
    include_stack := [⟨source, 0⟩]
    conditional_stack := []
    skipping := false
    include_cb := cb
    max_include_depth := 64
    attribute_map := attributes }

/-- Rust `Preprocessor::amalgamate` from a fresh preprocessor: run the loop and
strip the final character (`self.amalgamated.pop()`), which is always the
trailing newline when any line was emitted. -/
def amalgamate (fuel : Nat) (source : Str) (cb : AttrMap → Str → Except E Str)
    (attributes : AttrMap) : Option (Except (PreprocessError E) Str) :=
  (ppRun fuel (mkPreprocessor source cb attributes)).map
    (Except.map (fun st => st.amalgamated.dropLast))


/-! ## The parser (`src/src/parser.rs` with `src/src/parser/nom_ext.rs`)

Span location data is metadata only (two spans are equal iff their text
is), so parser values carry the text alone. -/

/-- Rust `DocAttribute` (`src/src/ast.rs`). -/
structure DocAttribute where
  id : Str
  unset : Bool
  value : List Str
deriving Repr, DecidableEq

/-- Rust `opt(preceded(ws1, take_until("\n")))` — the optional value of a
document attribute: at least one horizontal whitespace, then the text up
to the newline. -/
def docValue? (s : Str) : Option (Str × Str) :=
  let w := s.takeWhile hwsB
  if w.isEmpty then none else takeUntilNl (s.drop w.length)

/-- Rust `parse_doc_attribute` (`src/src/parser.rs` lines 43–58):
`: [!]? id : ( ws1 value )? ws \n` where `id` is one or more characters
other than `'\n'` and `':'`; a trailing `'!'` on the id is stripped and,
like the leading `'!'`, marks the attribute as unset. -/
def parse_doc_attribute (s : Str) : Option (DocAttribute × Str) := do
  let s1 ← stripTag (str (":")) s
  let (bang1, s2) :=
    match stripTag (str ("!")) s1 with
    | some r => (true, r)
    | none => (false, s1)
  let idRaw := s2.takeWhile (fun c => !(c == '\n') && !(c == ':'))
  if idRaw.isEmpty then none else
  let s3 ← stripTag (str (":")) (s2.drop idRaw.length)
  let (value, s4) :=
    match docValue? s3 with
    | some (v, r) => ([v], r)
    | none => ([], s3)
  let s5 ← stripTag (str ("\n")) (s4.dropWhile hwsB)
  let endsBang := idRaw.getLast? == some '!'
  some ({ id := if endsBang then idRaw.dropLast else idRaw,
          unset := bang1 || endsBang, value := value }, s5)

/-- Block attribute lists (`type AttributeList` in `src/src/ast.rs`):
name to optional value.  The Rust `HashMap` is modelled as an association
list; `alInsert` mirrors `HashMap::insert` (overwrite on duplicate). -/
abbrev AttrList := List (Str × Option Str)

/-- Rust `HashMap::insert`: overwrite the value when the key exists. -/
def alInsert (al : AttrList) (k : Str) (v : Option Str) : AttrList :=
  if al.any (fun p => p.1 == k) then
    al.map (fun p => if p.1 == k then (k, v) else p)
  else al ++ [(k, v)]

/-- Rust `parse_attribute` (`src/src/parser.rs` lines 60–65): a name made of an
alphanumeric first character followed by alphanumerics, `-` and `.`, then
optionally `ws = ws` and a value of one or more characters other than
`,`, `]`, `'\n'`.  When the value part fails, nom's `opt` backtracks to
just after the name. -/
def parse_attribute (s : Str) : Option ((Str × Option Str) × Str) :=
  match s with
  | [] => none
  | c :: _ =>
    if c.isAlphanum then
      let name := s.takeWhile (fun c => c.isAlphanum || c == '-' || c == '.')
      let s1 := s.drop name.length
      match stripTag (str ("=")) (s1.dropWhile hwsB) with
      | some s2 =>
        let s2w := s2.dropWhile hwsB
        let v := s2w.takeWhile (fun c => !(c == ',' || c == ']' || c == '\n'))
        if v.isEmpty then some ((name, none), s1)
        else some ((name, some v), s2w.drop v.length)
      | none => some ((name, none), s1)
    else none

/-- The `while let` loop of `parse_attribute_list`: repeatedly consume
`ws , ws` and another attribute; stop (without consuming) on failure. -/
def attrListLoop : Nat → AttrList → Str → AttrList × Str
  | 0, al, s => (al, s)
  | fuel + 1, al, s =>
    match stripTag (str (",")) (s.dropWhile hwsB) with
    | none => (al, s)
    | some s2 =>
      match parse_attribute (s2.dropWhile hwsB) with
      | none => (al, s)
      | some ((k, v), s3) => attrListLoop fuel (alInsert al k v) s3

/-- Rust `parse_attribute_list` (`src/src/parser.rs` lines 67–85):
`[ attr ( ws , ws attr )* ]` with an optional first attribute. -/
def parse_attribute_list (s : Str) : Option (AttrList × Str) := do
  let s1 ← stripTag (str ("[")) s
  let (al, s2) :=
    match parse_attribute s1 with
    | none => (([] : AttrList), s1)
    | some ((k, v), s1') => attrListLoop s1'.length (alInsert [] k v) s1'
  let s3 ← stripTag (str ("]")) s2
  some (al, s3)

/-- Rust `Callout` (`src/src/ast.rs`): number and text. -/
structure Callout where
  number : Nat
  text : Str
deriving Repr, DecidableEq

/-- Decimal value of a digit string (`Span::parse::<usize>`, modelled on `Nat`). -/
def digitsToNat (ds : Str) : Nat :=
  ds.foldl (fun n c => n * 10 + (c.toNat - 48)) 0

/-- Rust `parse_callout` (`src/src/parser.rs` lines 120–128):
`< digit1 > ws take_until("\n") \n`. -/
def parse_callout (s : Str) : Option (Callout × Str) := do
  let s1 ← stripTag (str ("<")) s
  let ds := s1.takeWhile (fun c => c.isDigit)
  if ds.isEmpty then none else
  let s2 ← stripTag (str (">")) (s1.drop ds.length)
  let (t, s3) ← takeUntilNl (s2.dropWhile hwsB)
  let s4 ← stripTag (str ("\n")) s3
  some (⟨digitsToNat ds, t⟩, s4)

/-- Rust `parse_callouts`: `many0(parse_callout)` (each success consumes at
least one character, so the input length bounds the iteration). -/
def parse_callouts (s : Str) : List Callout × Str :=
  go s.length s
where
  go : Nat → Str → List Callout × Str
    | 0, s => ([], s)
    | fuel + 1, s =>
      match parse_callout s with
      | none => ([], s)
      | some (c, s') =>
        let (cs, s'') := go fuel s'
        (c :: cs, s'')

/-- Rust `SectionTitle` (`src/src/ast.rs`). -/
structure SectionTitle where
  level : Nat
  content : Str
deriving Repr, DecidableEq

/-- Rust `fold_many_m_n(1, 6, tag("="), 0, |acc,_| acc+1)`: consume up to `n`
leading `'='` characters and count them; nom stops after `n` successes
without failing, and fails only when fewer than `m` matched. -/
def takeEqs : Nat → Str → Nat × Str
  | 0, s => (0, s)
  | n + 1, s =>
    match s with
    | c :: rest =>
      if c = '=' then
        let p := takeEqs n rest
        (p.1 + 1, p.2)
      else (0, c :: rest)
    | [] => (0, [])

/-- Rust `parse_section_title` (`src/src/parser.rs` lines 130–140): one to six
`'='`s (level = count − 1), horizontal whitespace, then `take_line`. -/
def parse_section_title (s : Str) : Option (SectionTitle × Str) :=
  let (count, s1) := takeEqs 6 s
  if count = 0 then none
  else do
    let (content, s2) ← takeUntilNl (s1.dropWhile hwsB)
    let s3 ← stripTag (str ("\n")) s2
    some (⟨count - 1, content⟩, s3)

/-! ## Blocks (for claim C8)

`src/src/parser.rs::parse_attributed_block` implements only the
thematic-break, page-break and fenced-listing alternatives of the block
dispatch; the block-macro production that the repository's own test
(`src/src/parser/tests.rs::parse_single_block_no_attributes`) and the
`Macro` declaration in `src/src/ast.rs` require is missing from `src/`,
so it is modelled from the spec below. -/

/-- Rust `Macro` (`src/src/ast.rs`). -/
structure MacroB where
  name : Str
  target : Str
  attribute_list : AttrList
deriving Repr, DecidableEq

/-- Rust `Context`, restricted to the variants the block dispatch produces. -/
inductive Context where
  | thematicBreak
  | pageBreak
  | listing (s : Str)
  | blockMacro (m : MacroB)
deriving Repr, DecidableEq

/-- Rust `Block` (`src/src/ast.rs`). -/
structure Block where
  context : Context
  attributes : AttrList
  callouts : List Callout
deriving Repr, DecidableEq

/-- Modelled from the spec: the `name::target[attrs]` block-macro
production of the block dispatch table (§4.4), which is absent from
`src/src/parser.rs`.  The name runs to the `::`, the target to the `[`,
and the bracketed list is the source `parse_attribute_list`. -/
def parseBlockMacro (s : Str) : Option (Context × Str) := do
  let name := s.takeWhile (fun c => !(c == ':' || c == '[' || c == '\n'))
  if name.isEmpty then none else
  let s1 ← stripTag (str ("::")) (s.drop name.length)
  let target := s1.takeWhile (fun c => !(c == '[' || c == '\n'))
  if target.isEmpty then none else
  let (al, s2) ← parse_attribute_list (s1.drop target.length)
  some (.blockMacro ⟨name, target, al⟩, s2)

/-- Rust `many0(ws_with_nl)`: skip blank (whitespace-only) lines. -/
def skipBlankLines : Nat → Str → Str
  | 0, s => s
  | fuel + 1, s =>
    match stripTag (str ("\n")) (s.dropWhile hwsB) with
    | none => s
    | some s' => skipBlankLines fuel s'

/-- The source block-body alternatives of `parse_attributed_block`
(`src/src/parser.rs` lines 94–100): three apostrophes (thematic break),
`>>>` (page break), and a fenced listing. -/
def parse_block_body (s : Str) : Option (Context × Str) :=
  match stripTag (List.replicate 3 (Char.ofNat 39)) s with
  | some s' => some (.thematicBreak, s')
  | none =>
  match stripTag (str (">>>")) s with
  | some s' => some (.pageBreak, s')
  | none =>
  match stripTag (str ("```\n")) s with
  | some s1 =>
    -- take_until("```") then tag("```")
    let rec untilFence : Nat → Str → Option (Str × Str)
      | 0, _ => none
      | fuel + 1, t =>
        if matchTag (str ("```")) t then some ([], t.drop 3)
        else match t with
          | [] => none
          | c :: cs => (untilFence fuel cs).map (fun p => (c :: p.1, p.2))
    (untilFence s1.length s1).map (fun p => (.listing p.1, p.2))
  | none => none

/-- Modelled from the spec: `parse_attributed_block` extended with the
block-macro production (§4.4 block dispatch).  Leading blank lines, an
optional attribute list, the block body, an optional trailing
`ws_with_nl` (the spec's scenario 4 accepts end of input), then callouts. -/
def parse_attributed_block_m (s : Str) : Option (Block × Str) := do
  let s0 := skipBlankLines s.length s
  let (al?, s1) :=
    match parse_attribute_list s0 with
    | some (al, s') => (some al, s')
    | none => (none, s0)
  let (ctx, s2) ←
    match parse_block_body s1 with
    | some r => some r
    | none => parseBlockMacro s1
  let s3 :=
    match stripTag (str ("\n")) (s2.dropWhile hwsB) with
    | some s' => s'
    | none => s2
  let (cos, s4) := parse_callouts s3
  some (⟨ctx, al?.getD [], cos⟩, s4)

/-! ## Concrete include callbacks used by the claim instances -/

/-- The include callback of the spec's scenario 6: `a ↦ "x\ninclude::b[]\ny\n"`,
`b ↦ "z"`. -/
def incChainCb : AttrMap → Str → Except Unit Str := fun _ t =>
  if t == str ("a") then .ok (str ("x\ninclude::b[]\ny\n"))
  else if t == str ("b") then .ok (str ("z"))
  else .error ()

/-- A callback that always fails; used for inputs that never reach an
`include::` directive. -/
def failCb : AttrMap → Str → Except Unit Str := fun _ _ => .error ()

/-! ## C1 — the include chain -/

/-- C1, counterexample: on the root `"include::a[]"` with the scenario's
callback, `amalgamate` produces `"x\nz\ny\n"` — the final newline is not
stripped (the trailing newline of `a` yields an extra empty line whose
newline survives the final `pop`), so the claimed result `"x\nz\ny"` is
wrong. -/
theorem C1_counterexample :
    amalgamate 32 (str ("include::a[]")) incChainCb [] = some (.ok (str ("x\nz\ny\n"))) ∧
    str ("x\nz\ny\n") ≠ str ("x\nz\ny") := by
  exact ⟨rfl, by decide⟩

/-- C1, amended: the include chain with root `"include::a[]"`,
`a = "x\ninclude::b[]\ny\n"`, `b = "z"` amalgamates successfully to
exactly `"x\nz\ny\n"` (depth-first textual paste; the final `pop` removes
the newline appended after the last emitted line, which here was the
phantom empty line arising from `a`'s trailing newline). -/
theorem C1_include_chain :
    amalgamate 32 (str ("include::a[]")) incChainCb [] = some (.ok (str ("x\nz\ny\n"))) := by
  rfl

/-! ## C7 — `parse_doc_attribute` bang forms -/

/-- C7: on `":X:\n"`, `":!X:\n"`, `":X!:\n"`, `":!X!:\n"` the document
attribute parser succeeds with `unset` false, true, true, true, and in
all four cases the id is exactly `"X"` (no trailing `'!'`). -/
theorem C7_doc_attribute_unset :
    parse_doc_attribute (str (":X:\n")) = some ({ id := str ("X"), unset := false, value := [] }, []) ∧
    parse_doc_attribute (str (":!X:\n")) = some ({ id := str ("X"), unset := true, value := [] }, []) ∧
    parse_doc_attribute (str (":X!:\n")) = some ({ id := str ("X"), unset := true, value := [] }, []) ∧
    parse_doc_attribute (str (":!X!:\n")) = some ({ id := str ("X"), unset := true, value := [] }, []) := by
  exact ⟨rfl, rfl, rfl, rfl⟩

/-! ## C8 — the block macro -/

/-- C8: `"image::foo.png[width=240]"` parses as a single attributed block
whose context is the block macro `image` with target `foo.png` and
attribute list `{width ↦ 240}`, with empty block attributes and no
callouts.  (Settled against the spec-modelled block-macro production; see
`parseBlockMacro`.) -/
theorem C8_image_block :
    parse_attributed_block_m (str ("image::foo.png[width=240]")) =
      some ({ context := .blockMacro
                { name := str ("image"), target := str ("foo.png"),
                  attribute_list := [(str ("width"), some (str ("240")))] },
              attributes := [], callouts := [] }, []) := by
  rfl

/-! ## C9 — section titles -/

/-- C9, counterexample: a line starting with seven `'='` characters is not
a parse error — nom's `fold_many_m_n(1, 6, …)` simply stops after six
matches, so `"=======x\n"` succeeds with level 5 and the seventh `'='`
left in the content. -/
theorem C9_counterexample :
    parse_section_title (str ("=======x\n")) = some ({ level := 5, content := str ("=x") }, []) := by
  rfl

/-! ## C2 / C3 — counterexamples -/

/-- C2, counterexample: on the directive-free input `"a\n"`, `amalgamate`
returns `"a\n"` itself, not `"a\n"` with the trailing newline stripped:
the trailing newline of the input produces an extra empty line whose
appended newline is what the final `pop` removes. -/
theorem C2_counterexample :
    amalgamate 10 (str ("a\n")) failCb [] = some (.ok (str ("a\n"))) ∧
    str ("a\n") ≠ str ("a") := by
  exact ⟨rfl, by decide⟩

/-- C3, counterexample: the input line `"ifdef::x"` (no bracketed
attribute list) is not recognised as a directive, so it is emitted
verbatim: the amalgamated output contains a line beginning with
`"ifdef::"` that does not start with `'['`. -/
theorem C3_counterexample :
    amalgamate 10 (str ("ifdef::x")) failCb [] = some (.ok (str ("ifdef::x"))) ∧
    linesOf (str ("ifdef::x")) = [str ("ifdef::x")] ∧
    matchTag (str ("ifdef::")) (str ("ifdef::x")) = true ∧
    (str ("ifdef::x")).head? ≠ some '[' := by
  refine ⟨rfl, rfl, rfl, by decide⟩

/-! ## Line-structure lemmas -/

/-- Concatenation of lines, each terminated by a newline — the shape of
the `amalgamated` buffer before the final `pop`. -/
def renderLines (ls : List Str) : Str := (ls.map (fun l => l ++ ['\n'])).flatten

theorem renderLines_nil : renderLines [] = [] := rfl

theorem renderLines_cons (l : Str) (ls : List Str) :
    renderLines (l :: ls) = l ++ '\n' :: renderLines ls := by
  simp [renderLines]

theorem renderLines_append (ls ms : List Str) :
    renderLines (ls ++ ms) = renderLines ls ++ renderLines ms := by
  simp [renderLines]

theorem linesOf_ne_nil (s : Str) : linesOf s ≠ [] := by
  cases s with
  | nil => simp [linesOf]
  | cons c cs =>
    simp only [linesOf]
    split
    · simp
    · split <;> simp

theorem linesOf_no_newline {l : Str} (h : '\n' ∉ l) : linesOf l = [l] := by
  induction l with
  | nil => rfl
  | cons c cs ih =>
    have hc : ¬ c = '\n' := fun hh => h (hh ▸ List.mem_cons_self c cs)
    have hcs : '\n' ∉ cs := fun hh => h (List.mem_cons_of_mem _ hh)
    simp only [linesOf, if_neg hc, ih hcs]

theorem linesOf_append_newline {l : Str} (r : Str) (h : '\n' ∉ l) :
    linesOf (l ++ '\n' :: r) = l :: linesOf r := by
  induction l with
  | nil => simp [linesOf]
  | cons c cs ih =>
    have hc : ¬ c = '\n' := fun hh => h (hh ▸ List.mem_cons_self c cs)
    have hcs : '\n' ∉ cs := fun hh => h (List.mem_cons_of_mem _ hh)
    simp only [List.cons_append, linesOf, if_neg hc, List.append_eq, ih hcs]

theorem renderLines_linesOf (s : Str) : renderLines (linesOf s) = s ++ ['\n'] := by
  induction s with
  | nil => rfl
  | cons c cs ih =>
    by_cases hc : c = '\n'
    · subst hc
      simp [linesOf, renderLines_cons, ih]
    · simp only [linesOf, if_neg hc]
      cases hcs : linesOf cs with
      | nil => exact absurd hcs (linesOf_ne_nil cs)
      | cons l ls =>
        rw [hcs] at ih
        simp only [renderLines_cons] at ih ⊢
        cases ls with
        | nil =>
          simp only [renderLines_nil] at ih ⊢
          simpa using ih
        | cons l2 ls2 => simpa using ih

/-- Lines of the amalgamated buffer after the final `pop`: with at least
one emitted line the trailing newline is removed and the lines are
recovered exactly. -/
theorem linesOf_dropLast_renderLines (ls : List Str) (hne : ls ≠ [])
    (h : ∀ l ∈ ls, '\n' ∉ l) :
    linesOf (renderLines ls).dropLast = ls := by
  induction ls with
  | nil => exact absurd rfl hne
  | cons l ls ih =>
    cases ls with
    | nil =>
      have : renderLines [l] = l ++ ['\n'] := by simp [renderLines]
      rw [this, List.dropLast_concat]
      exact linesOf_no_newline (h l (List.mem_cons_self _ _))
    | cons l2 ls2 =>
      have hrest : renderLines (l2 :: ls2) ≠ [] := by
        rw [renderLines_cons]
        simp
      rw [renderLines_cons, show l ++ '\n' :: renderLines (l2 :: ls2)
            = (l ++ ['\n']) ++ renderLines (l2 :: ls2) by simp,
          List.dropLast_append_of_ne_nil _ hrest,
          show (l ++ ['\n']) ++ (renderLines (l2 :: ls2)).dropLast
            = l ++ '\n' :: (renderLines (l2 :: ls2)).dropLast by simp]
      rw [linesOf_append_newline _ (h l (List.mem_cons_self _ _)),
          ih (by simp) (fun x hx => h x (List.mem_cons_of_mem _ hx))]

/-! ## `nextLine?` characterisation -/

theorem nextLine_none {src : Str} {p : Nat} (h : src.length < p) :
    nextLine? ⟨src, p⟩ = none := by
  simp [nextLine?, h]

/-- Reading a line that is followed by a newline. -/
theorem nextLine_mid {src L R : Str} {p : Nat}
    (hdrop : src.drop p = L ++ '\n' :: R) (hnl : '\n' ∉ L)
    (hcr : L.getLast? ≠ some '\r') :
    nextLine? ⟨src, p⟩ = some (L, ⟨src, p + L.length + 1⟩) := by
  have hple : p ≤ src.length := by
    by_contra hgt
    have : src.drop p = [] := List.drop_eq_nil_iff.mpr (Nat.le_of_not_le hgt)
    simp [this] at hdrop
  have hall : ∀ c ∈ L, (!(c == '\n')) = true := by
    intro c hcmem
    simp only [Bool.not_eq_true', beq_eq_false_iff_ne]
    exact fun hh => hnl (hh ▸ hcmem)
  have htake : (src.drop p).takeWhile (fun c => !(c == '\n')) = L := by
    rw [hdrop, List.takeWhile_append_of_pos hall]
    simp
  simp only [nextLine?, if_neg (Nat.not_lt.mpr hple), htake,
    beq_eq_false_iff_ne.mpr hcr, if_neg]
  simp

/-- Reading the final line of a source (no trailing newline): the cursor
moves past the end, so the next read returns `none`. -/
theorem nextLine_last {src L : Str} {p : Nat}
    (hple : p ≤ src.length) (hdrop : src.drop p = L) (hnl : '\n' ∉ L)
    (hcr : L.getLast? ≠ some '\r') :
    nextLine? ⟨src, p⟩ = some (L, ⟨src, p + L.length + 1⟩) ∧
    src.length < p + L.length + 1 := by
  have hall : ∀ c ∈ L, (!(c == '\n')) = true := by
    intro c hcmem
    simp only [Bool.not_eq_true', beq_eq_false_iff_ne]
    exact fun hh => hnl (hh ▸ hcmem)
  have htake : (src.drop p).takeWhile (fun c => !(c == '\n')) = L := by
    rw [hdrop]
    exact List.takeWhile_eq_self_iff.mpr hall
  have hlen : src.length = p + L.length := by
    have := congrArg List.length hdrop
    rw [List.length_drop] at this
    omega
  constructor
  · simp only [nextLine?, if_neg (Nat.not_lt.mpr hple), htake,
      beq_eq_false_iff_ne.mpr hcr, if_neg]
    simp
  · omega

/-- The cursor after a mid-source line points at the rest. -/
theorem drop_after_line {src L R : Str} {p : Nat}
    (hdrop : src.drop p = L ++ '\n' :: R) :
    src.drop (p + L.length + 1) = R := by
  have h1 : p + L.length + 1 = p + (L.length + 1) := by omega
  rw [h1, ← List.drop_drop, hdrop,
      show L ++ '\n' :: R = (L ++ ['\n']) ++ R by simp]
  exact List.drop_left' (by simp)

theorem nextLine_no_newline {inc : Include} {l : Str} {inc' : Include}
    (h : nextLine? inc = some (l, inc')) : '\n' ∉ l := by
  simp only [nextLine?] at h
  split at h
  · exact absurd h (by simp)
  · intro hmem
    set line := (inc.source.drop inc.processed).takeWhile (fun c => !(c == '\n')) with hline
    have hl : l = if line.getLast? == some '\r' then line.dropLast else line := by
      simpa using congrArg Prod.fst (Option.some_injective _ h).symm
    have hmem' : '\n' ∈ line := by
      rcases hl ▸ hmem |> fun hx => hx with hx
      split at hl
      · exact List.dropLast_subset _ (hl ▸ hmem)
      · exact hl ▸ hmem
    have := List.mem_takeWhile_imp hmem'
    simp at this

/-! ## Structural facts about `parse_pp_directive` -/

theorem stripTag_single_inv {c : Char} {s t : Str} (h : stripTag [c] s = some t) :
    s = c :: t := by
  cases s with
  | nil => simp [stripTag, matchTag] at h
  | cons d ds =>
    simp only [stripTag, matchTag, Bool.and_true] at h
    split at h
    next hb =>
      have hcd : c = d := by
        have := hb
        simp only [beq_iff_eq] at this
        exact this
      have hts : t = ds := by simpa using (Option.some_injective _ h).symm
      rw [hcd, hts]
    next => exact absurd h (by simp)

theorem attr_list_some_sub {s b : Str} (h : attr_list s = some b) :
    ']' ∈ s ∧ ']' ∉ b ∧ b ⊆ s := by
  simp only [attr_list] at h
  split at h
  · exact absurd h (by simp)
  next s1 h1 =>
    split at h
    · exact absurd h (by simp)
    next s2 h2 =>
      have hs : s = '[' :: s1 := stripTag_single_inv h1
      have hb : b = s1.takeWhile (fun c => !(c == ']')) := by
        simpa using (Option.some_injective _ h).symm
      have hdw : s1.dropWhile (fun c => !(c == ']')) = ']' :: s2 :=
        stripTag_single_inv h2
      refine ⟨?_, ?_, ?_⟩
      · have : ']' ∈ s1.dropWhile (fun c => !(c == ']')) := by
          rw [hdw]; exact List.mem_cons_self _ _
        rw [hs]
        exact List.mem_cons_of_mem _ (List.dropWhile_subset _ this)
      · intro hmem
        have := List.mem_takeWhile_imp (hb ▸ hmem)
        simp at this
      · intro x hx
        rw [hs]
        exact List.mem_cons_of_mem _ (List.takeWhile_subset _ (hb ▸ hx))

theorem dirTail1_some_sub {s : Str} {p : Str × Str} (h : dirTail1 s = some p) :
    ']' ∈ s ∧ ']' ∉ p.2 ∧ p.2 ⊆ s := by
  simp only [dirTail1] at h
  split at h
  · exact absurd h (by simp)
  · cases hal : attr_list (s.dropWhile (fun c => !(c == '['))) with
    | none => rw [hal] at h; exact absurd h (by simp)
    | some b =>
      rw [hal] at h
      have hba : b = p.2 := by
        simpa using congrArg Prod.snd (Option.some_injective _ h)
      subst hba
      obtain ⟨h1, h2, h3⟩ := attr_list_some_sub hal
      exact ⟨List.dropWhile_subset _ h1, h2,
        fun x hx => List.dropWhile_subset _ (h3 hx)⟩

theorem dirTail0_some_sub {s : Str} {p : Str × Str} (h : dirTail0 s = some p) :
    ']' ∈ s ∧ ']' ∉ p.2 ∧ p.2 ⊆ s := by
  simp only [dirTail0] at h
  cases hal : attr_list (s.dropWhile (fun c => !(c == '['))) with
  | none => rw [hal] at h; exact absurd h (by simp)
  | some b =>
    rw [hal] at h
    have hba : b = p.2 := by
      simpa using congrArg Prod.snd (Option.some_injective _ h)
    subst hba
    obtain ⟨h1, h2, h3⟩ := attr_list_some_sub hal
    exact ⟨List.dropWhile_subset _ h1, h2,
      fun x hx => List.dropWhile_subset _ (h3 hx)⟩

/-- A recognised directive line always holds a `']'` (all five grammar
alternatives end in the bracketed attribute list). -/
theorem rbracket_mem_of_ppdir {line : Str} {d : PPDirective}
    (h : parse_pp_directive line = some d) : ']' ∈ line := by
  simp only [parse_pp_directive] at h
  split at h
  · exact absurd h (by simp)
  split at h
  · obtain ⟨p, hp, -⟩ := Option.map_eq_some'.mp h
    exact List.drop_subset _ _ (dirTail1_some_sub hp).1
  split at h
  · obtain ⟨p, hp, -⟩ := Option.map_eq_some'.mp h
    exact List.drop_subset _ _ (dirTail1_some_sub hp).1
  split at h
  · obtain ⟨p, hp, -⟩ := Option.map_eq_some'.mp h
    exact List.drop_subset _ _ (dirTail1_some_sub hp).1
  split at h
  · obtain ⟨p, hp, -⟩ := Option.map_eq_some'.mp h
    exact List.drop_subset _ _ (dirTail0_some_sub hp).1
  split at h
  · obtain ⟨p, hp, -⟩ := Option.map_eq_some'.mp h
    exact List.drop_subset _ _ (dirTail0_some_sub hp).1
  · exact absurd h (by simp)

/-- A line with no `']'` is never recognised as a directive — it falls
through to verbatim emission. -/
theorem ppdir_none_of_no_rbracket {line : Str} (h : ']' ∉ line) :
    parse_pp_directive line = none := by
  cases hd : parse_pp_directive line with
  | none => rfl
  | some d => exact absurd (rbracket_mem_of_ppdir hd) h

/-- The inline text of a recognised inline `ifdef::` holds no `']'` and is
drawn from the characters of the directive line. -/
theorem inline_of_ifdef {line tgs l : Str}
    (h : parse_pp_directive line = some (.ifDef tgs (some l))) :
    ']' ∉ l ∧ l ⊆ line := by
  simp only [parse_pp_directive] at h
  split at h
  · exact absurd h (by simp)
  split at h
  · obtain ⟨p, hp, he⟩ := Option.map_eq_some'.mp h
    exact PPDirective.noConfusion he
  split at h
  · obtain ⟨p, hp, he⟩ := Option.map_eq_some'.mp h
    injection he with h1 h2
    have hpl : p.2 = l := by
      simp only [ifdefInline] at h2
      split at h2
      · exact absurd h2 (by simp)
      · simpa using h2
    obtain ⟨-, hb, hsub⟩ := dirTail1_some_sub hp
    exact hpl ▸ ⟨hb, fun x hx => List.drop_subset _ _ (hsub hx)⟩
  split at h
  · obtain ⟨p, hp, he⟩ := Option.map_eq_some'.mp h
    exact PPDirective.noConfusion he
  split at h
  · obtain ⟨p, hp, he⟩ := Option.map_eq_some'.mp h
    exact PPDirective.noConfusion he
  split at h
  · obtain ⟨p, hp, he⟩ := Option.map_eq_some'.mp h
    exact PPDirective.noConfusion he
  · exact absurd h (by simp)

/-- The inline text of a recognised inline `ifndef::`, as for `ifdef::`. -/
theorem inline_of_ifndef {line tgs l : Str}
    (h : parse_pp_directive line = some (.ifNotDef tgs (some l))) :
    ']' ∉ l ∧ l ⊆ line := by
  simp only [parse_pp_directive] at h
  split at h
  · exact absurd h (by simp)
  split at h
  · obtain ⟨p, hp, he⟩ := Option.map_eq_some'.mp h
    exact PPDirective.noConfusion he
  split at h
  · obtain ⟨p, hp, he⟩ := Option.map_eq_some'.mp h
    exact PPDirective.noConfusion he
  split at h
  · obtain ⟨p, hp, he⟩ := Option.map_eq_some'.mp h
    injection he with h1 h2
    have hpl : p.2 = l := by
      simp only [ifdefInline] at h2
      split at h2
      · exact absurd h2 (by simp)
      · simpa using h2
    obtain ⟨-, hb, hsub⟩ := dirTail1_some_sub hp
    exact hpl ▸ ⟨hb, fun x hx => List.drop_subset _ _ (hsub hx)⟩
  split at h
  · obtain ⟨p, hp, he⟩ := Option.map_eq_some'.mp h
    exact PPDirective.noConfusion he
  split at h
  · obtain ⟨p, hp, he⟩ := Option.map_eq_some'.mp h
    exact PPDirective.noConfusion he
  · exact absurd h (by simp)

/-! ## The output invariant for C3 -/

/-- A line that may appear in the amalgamated buffer: not a recognised
directive, and newline-free. -/
def GoodLine (l : Str) : Prop := parse_pp_directive l = none ∧ '\n' ∉ l

/-- The amalgamated buffer is a concatenation of newline-terminated good
lines. -/
def InvAcc (a : Str) : Prop := ∃ ls, a = renderLines ls ∧ ∀ l ∈ ls, GoodLine l

theorem InvAcc_nil : InvAcc [] := ⟨[], rfl, by simp⟩

theorem InvAcc_push {a l : Str} (ha : InvAcc a) (hl : GoodLine l) :
    InvAcc (push_line a l) := by
  obtain ⟨ls, rfl, hls⟩ := ha
  refine ⟨ls ++ [l], ?_, ?_⟩
  · simp [push_line, renderLines_append, renderLines, List.append_assoc]
  · intro x hx
    rcases List.mem_append.mp hx with hx | hx
    · exact hls x hx
    · simpa using (List.mem_singleton.mp hx) ▸ hl

theorem ppProcessLine_inv {line : Str} {st st' : PPState E} (hnl : '\n' ∉ line)
    (h : ppProcessLine line st = .next st') (ha : InvAcc st.amalgamated) :
    InvAcc st'.amalgamated := by
  simp only [ppProcessLine, parse_doc_attrib] at h
  split at h
  -- endIf
  · split at h
    · injection h with h'; rw [← h']; exact ha
    · injection h with h'; rw [← h']; exact ha
  -- include
  · split at h
    · injection h with h'; rw [← h']; exact ha
    · split at h
      · exact StepOut.noConfusion h
      · split at h
        · exact StepOut.noConfusion h
        · injection h with h'; rw [← h']; exact ha
  -- ifdef inline
  next tgs l heq =>
    split at h
    · injection h with h'
      rw [← h']
      have hincl := inline_of_ifdef heq
      exact InvAcc_push ha
        ⟨ppdir_none_of_no_rbracket hincl.1, fun hm => hnl (hincl.2 hm)⟩
    · injection h with h'; rw [← h']; exact ha
  -- ifdef block
  · injection h with h'; rw [← h']; exact ha
  -- ifndef inline
  next tgs l heq =>
    split at h
    · injection h with h'
      rw [← h']
      have hincl := inline_of_ifndef heq
      exact InvAcc_push ha
        ⟨ppdir_none_of_no_rbracket hincl.1, fun hm => hnl (hincl.2 hm)⟩
    · injection h with h'; rw [← h']; exact ha
  -- ifndef block
  · injection h with h'; rw [← h']; exact ha
  -- ifeval
  · injection h with h'; rw [← h']; exact ha
  -- plain line
  next heq =>
    split at h
    · injection h with h'; rw [← h']; exact ha
    · injection h with h'
      rw [← h']
      exact InvAcc_push ha ⟨heq, hnl⟩

theorem ppStep_inv {st st' : PPState E} (h : ppStep st = .next st')
    (ha : InvAcc st.amalgamated) : InvAcc st'.amalgamated := by
  simp only [ppStep] at h
  split at h
  · exact StepOut.noConfusion h
  next inc rest heq =>
    split at h
    · injection h with h'; rw [← h']; exact ha
    next line inc' hline =>
      exact ppProcessLine_inv (nextLine_no_newline hline) h ha

theorem ppRun_inv : ∀ (fuel : Nat) (st st' : PPState E),
    InvAcc st.amalgamated → ppRun fuel st = some (.ok st') →
    InvAcc st'.amalgamated := by
  intro fuel
  induction fuel with
  | zero => intro st st' _ h; exact absurd h (by simp [ppRun])
  | succ n ih =>
    intro st st' ha h
    simp only [ppRun] at h
    split at h
    · have : st = st' := by
        have := Option.some_injective _ h
        injection this with h'
      rw [← this]; exact ha
    · exact absurd (Option.some_injective _ h) (by intro hc; injection hc)
    next st'' hstep => exact ih st'' st' (ppStep_inv hstep ha) h

/-- C3, amended: whenever `amalgamate` succeeds, no line of the output is
recognised by `parse_pp_directive` as a directive (for any input, include
callback, attribute map and fuel).  Lines that merely begin with a
directive keyword but are malformed — such as `"ifdef::x"` with no
attribute list — are emitted verbatim, which is why the claim's purely
prefix-based phrasing fails (see the counterexample). -/
theorem C3_no_directive_lines {E : Type} (fuel : Nat) (src : Str)
    (cb : AttrMap → Str → Except E Str) (attrs : AttrMap) (out : Str)
    (h : amalgamate fuel src cb attrs = some (.ok out)) :
    ∀ l ∈ linesOf out, parse_pp_directive l = none := by
  simp only [amalgamate] at h
  obtain ⟨r, hr, hmap⟩ := Option.map_eq_some'.mp h
  cases r with
  | error e => exact absurd hmap (by simp [Except.map])
  | ok st' =>
    have hout : out = st'.amalgamated.dropLast := by
      simp only [Except.map] at hmap
      injection hmap with h'
      exact h'.symm
    have hinv : InvAcc st'.amalgamated :=
      ppRun_inv fuel _ st' InvAcc_nil hr
    obtain ⟨ls, hls, hgood⟩ := hinv
    intro l hl
    cases hne : ls with
    | nil =>
      rw [hout, hls, hne, renderLines_nil] at hl
      simp only [List.dropLast_nil] at hl
      have : l = [] := by
        have : linesOf ([] : Str) = [[]] := rfl
        rw [this] at hl
        simpa using hl
      rw [this]
      rfl
    | cons l0 ls0 =>
      rw [hout, hls, hne,
        linesOf_dropLast_renderLines _ (by simp)
          (fun x hx => ((hne ▸ hgood) x hx).2)] at hl
      exact ((hne ▸ hgood) l hl).1

/-- Witness for C3: applying the theorem to the run on input `"a"`
(output `"a"`) shows its only line is not a directive. -/
theorem C3_no_directive_lines_witness : parse_pp_directive (str ("a")) = none :=
  C3_no_directive_lines 10 (str ("a")) failCb [] (str ("a")) rfl (str ("a"))
    (by rw [show linesOf (str ("a")) = [str ("a")] from rfl]; exact List.mem_singleton.mpr rfl)

/-! ## The plain-input run (for C2) -/

theorem ppRun_succ_next {st st' : PPState E} {n : Nat} (h : ppStep st = .next st') :
    ppRun (n + 1) st = ppRun n st' := by
  simp [ppRun, h]

theorem ppRun_succ_done {st : PPState E} {n : Nat} (h : ppStep st = .done) :
    ppRun (n + 1) st = some (.ok st) := by
  simp [ppRun, h]

theorem ppStep_read {st : PPState E} {inc : Include} {rest : List Include}
    {line : Str} {inc' : Include} (hstack : st.include_stack = inc :: rest)
    (hnext : nextLine? inc = some (line, inc')) :
    ppStep st = ppProcessLine line { st with include_stack := inc' :: rest } := by
  simp [ppStep, hstack, hnext]

theorem ppStep_pop {st : PPState E} {inc : Include} {rest : List Include}
    (hstack : st.include_stack = inc :: rest) (hnext : nextLine? inc = none) :
    ppStep st = .next { st with include_stack := rest } := by
  simp [ppStep, hstack, hnext]

theorem ppStep_done {st : PPState E} (hstack : st.include_stack = []) :
    ppStep st = .done := by
  simp [ppStep, hstack]

/-- On a non-directive line with skipping off, the loop body emits the
line verbatim and touches nothing else. -/
theorem ppProcessLine_plain {line : Str} {st : PPState E}
    (hdir : parse_pp_directive line = none) (hskip : st.skipping = false) :
    ppProcessLine line st =
      .next { st with amalgamated := push_line st.amalgamated line } := by
  simp [ppProcessLine, parse_doc_attrib, hdir, hskip]

/-- Splitting a string at its first newline. -/
theorem split_at_first_newline {s : Str} (h : '\n' ∈ s) :
    s = s.takeWhile (fun c => !(c == '\n')) ++
        '\n' :: (s.dropWhile (fun c => !(c == '\n'))).tail := by
  induction s with
  | nil => simp at h
  | cons c cs ih =>
    by_cases hc : c = '\n'
    · subst hc
      simp
    · have hcs : '\n' ∈ cs := by
        rcases List.mem_cons.mp h with h' | h'
        · exact absurd h'.symm hc
        · exact h'
      have hcb : (fun c => !(c == '\n')) c = true := by
        simp only [Bool.not_eq_true', beq_eq_false_iff_ne]
        exact hc
      rw [List.takeWhile_cons_of_pos (p := fun c => !(c == '\n')) hcb,
        List.dropWhile_cons_of_pos (p := fun c => !(c == '\n')) hcb]
      exact congrArg (c :: ·) (ih hcs)

/-- The single-include, no-directive run: every remaining line is pushed
verbatim, then the exhausted source is popped and the loop stops. -/
theorem ppRun_plain {E : Type} : ∀ (n : Nat) (src : Str) (p : Nat) (acc : Str)
    (cond : List (Str × Bool)) (cb : AttrMap → Str → Except E Str)
    (maxd : Nat) (attrs : AttrMap) (fuel : Nat),
    src.length + 1 - p = n →
    p ≤ src.length →
    '\r' ∉ src.drop p →
    (∀ l ∈ linesOf (src.drop p), parse_pp_directive l = none) →
    (linesOf (src.drop p)).length + 2 ≤ fuel →
    ppRun fuel ⟨acc, [⟨src, p⟩], cond, false, cb, maxd, attrs⟩ =
      some (.ok ⟨acc ++ renderLines (linesOf (src.drop p)), [], cond, false,
                 cb, maxd, attrs⟩) := by
  intro n
  induction n using Nat.strong_induction_on with
  | _ n ih =>
    intro src p acc cond cb maxd attrs fuel hn hple hcr hlines hfuel
    by_cases hnl : '\n' ∈ src.drop p
    · -- a mid-source line followed by a newline
      set L := (src.drop p).takeWhile (fun c => !(c == '\n')) with hL
      set R := ((src.drop p).dropWhile (fun c => !(c == '\n'))).tail with hR
      have hsplit : src.drop p = L ++ '\n' :: R := split_at_first_newline hnl
      have hLnl : '\n' ∉ L := fun hm => by
        have := List.mem_takeWhile_imp (hL ▸ hm)
        simp at this
      have hLcr : L.getLast? ≠ some '\r' := by
        intro hlast
        exact hcr (hsplit ▸ List.mem_append_left _
          (List.mem_of_getLast?_eq_some hlast))
      have hnext := nextLine_mid (p := p) hsplit hLnl hLcr
      have hdropR : src.drop (p + L.length + 1) = R := drop_after_line hsplit
      have hlinesEq : linesOf (src.drop p) = L :: linesOf R := by
        rw [hsplit]
        exact linesOf_append_newline _ hLnl
      have hLdir : parse_pp_directive L = none :=
        hlines L (by rw [hlinesEq]; exact List.mem_cons_self _ _)
      obtain ⟨fuel', rfl⟩ : ∃ fuel', fuel = fuel' + 1 := by
        cases fuel with
        | zero => omega
        | succ k => exact ⟨k, rfl⟩
      have hlen : src.length = p + L.length + 1 + R.length := by
        have := congrArg List.length hsplit
        rw [List.length_drop] at this
        simp at this
        omega
      have hstep : ppStep (⟨acc, [⟨src, p⟩], cond, false, cb, maxd, attrs⟩ :
          PPState E) =
          .next ⟨push_line acc L, [⟨src, p + L.length + 1⟩], cond, false,
                 cb, maxd, attrs⟩ := by
        rw [ppStep_read rfl hnext]
        exact ppProcessLine_plain hLdir rfl
      rw [ppRun_succ_next hstep]
      have hrec := ih (src.length + 1 - (p + L.length + 1)) (by omega) src
        (p + L.length + 1) (push_line acc L) cond cb maxd attrs fuel' rfl
        (by omega)
        (by rw [hdropR]
            exact fun hm => hcr (hsplit ▸ List.mem_append_right _
              (List.mem_cons_of_mem _ hm)))
        (by rw [hdropR]
            intro l hl
            exact hlines l (by rw [hlinesEq]; exact List.mem_cons_of_mem _ hl))
        (by rw [hdropR]
            rw [hlinesEq] at hfuel
            simp only [List.length_cons] at hfuel
            omega)
      rw [hdropR] at hrec
      rw [hrec, hlinesEq, renderLines_cons]
      simp [push_line, List.append_assoc]
    · -- the final line: no newline remains
      set L := src.drop p with hL
      have hLnl : '\n' ∉ L := hnl
      have hLcr : L.getLast? ≠ some '\r' := by
        intro hlast
        exact hcr (List.mem_of_getLast?_eq_some hlast)
      obtain ⟨hnext, hpast⟩ := nextLine_last hple rfl hLnl hLcr
      have hlinesEq : linesOf (src.drop p) = [L] := linesOf_no_newline hLnl
      have hLdir : parse_pp_directive L = none :=
        hlines L (by rw [hlinesEq]; exact List.mem_singleton.mpr rfl)
      obtain ⟨f3, rfl⟩ : ∃ f3, fuel = f3 + 3 := by
        rw [hlinesEq] at hfuel
        simp only [List.length_singleton] at hfuel
        exact ⟨fuel - 3, by omega⟩
      have hstep1 : ppStep (⟨acc, [⟨src, p⟩], cond, false, cb, maxd, attrs⟩ :
          PPState E) =
          .next ⟨push_line acc L, [⟨src, p + L.length + 1⟩], cond, false,
                 cb, maxd, attrs⟩ := by
        rw [ppStep_read rfl hnext]
        exact ppProcessLine_plain hLdir rfl
      have hstep2 : ppStep (⟨push_line acc L, [⟨src, p + L.length + 1⟩], cond,
          false, cb, maxd, attrs⟩ : PPState E) =
          .next ⟨push_line acc L, [], cond, false, cb, maxd, attrs⟩ :=
        ppStep_pop rfl (nextLine_none hpast)
      rw [show f3 + 3 = (f3 + 2) + 1 by omega, ppRun_succ_next hstep1,
        show f3 + 2 = (f3 + 1) + 1 by omega, ppRun_succ_next hstep2,
        ppRun_succ_done (ppStep_done rfl)]
      rw [hlinesEq]
      simp [push_line, renderLines]

theorem mkPreprocessor_eq {E : Type} (src : Str)
    (cb : AttrMap → Str → Except E Str) (attrs : AttrMap) :
    mkPreprocessor src cb attrs =
      (⟨[], [⟨src, 0⟩], [], false, cb, 64, attrs⟩ : PPState E) := rfl

theorem linesOf_length_le (s : Str) : (linesOf s).length ≤ s.length + 1 := by
  induction s with
  | nil => simp [linesOf]
  | cons c cs ih =>
    simp only [linesOf]
    split
    · simpa using Nat.succ_le_succ ih
    · cases hcs : linesOf cs with
      | nil => simp
      | cons l ls =>
        rw [hcs] at ih
        simp only [List.length_cons] at ih ⊢
        omega

/-- C2, amended: on a `'\r'`-free input none of whose lines is a
recognised preprocessor directive, `amalgamate` succeeds and returns the
input **exactly** — no trailing newline is stripped.  (When the input ends
in a newline, the final empty line read past it re-adds the newline that
the final `pop` removes; when it does not, the `pop` removes the newline
the preprocessor itself appended.)  The claimed single trailing-newline
strip is refuted by `C2_counterexample`. -/
theorem C2_no_directive_identity {E : Type} (src : Str)
    (cb : AttrMap → Str → Except E Str) (attrs : AttrMap)
    (hcr : '\r' ∉ src)
    (hlines : ∀ l ∈ linesOf src, parse_pp_directive l = none) :
    amalgamate (src.length + 3) src cb attrs = some (.ok src) := by
  have hfuel : (linesOf src).length + 2 ≤ src.length + 3 := by
    have := linesOf_length_le src
    omega
  have h := ppRun_plain (E := E) (src.length + 1) src 0 [] [] cb 64 attrs
    (src.length + 3) (by omega) (by omega)
    (by rw [List.drop_zero]; exact hcr)
    (by rw [List.drop_zero]; exact hlines)
    (by rw [List.drop_zero]; exact hfuel)
  rw [List.drop_zero] at h
  simp only [amalgamate, mkPreprocessor_eq, h]
  simp only [Option.map_some', Except.map, List.nil_append,
    renderLines_linesOf, List.dropLast_concat]

/-- Witness for C2 at the concrete directive-free input `"hi\n"`. -/
theorem C2_no_directive_identity_witness :
    '\r' ∉ str ("hi\n") ∧
    amalgamate ((str ("hi\n")).length + 3) (str ("hi\n")) failCb [] =
      some (.ok (str ("hi\n"))) :=
  ⟨by decide, C2_no_directive_identity _ failCb [] (by decide) (by decide)⟩

/-! ## Include-depth bound (for C4) -/

theorem ppRun_succ_fail {st : PPState E} {e : PreprocessError E} {n : Nat}
    (h : ppStep st = .fail e) : ppRun (n + 1) st = some (.error e) := by
  simp [ppRun, h]

theorem ppProcessLine_depth {line : Str} {st st' : PPState E}
    (h : ppProcessLine line st = .next st')
    (hle : st.include_stack.length ≤ st.max_include_depth) :
    st'.include_stack.length ≤ st'.max_include_depth := by
  simp only [ppProcessLine, parse_doc_attrib] at h
  split at h
  · split at h <;> (injection h with h'; rw [← h']; exact hle)
  · split at h
    · injection h with h'; rw [← h']; exact hle
    · split at h
      next => exact StepOut.noConfusion h
      next hguard =>
        split at h
        · exact StepOut.noConfusion h
        · injection h with h'
          rw [← h']
          have hlt : st.include_stack.length < st.max_include_depth :=
            Nat.lt_of_not_le hguard
          have hX : (match st.include_stack with
              | top :: r => if top.source.length ≤ top.processed then r
                            else top :: r
              | [] => ([] : List Include)).length ≤ st.include_stack.length := by
            cases st.include_stack with
            | nil => simp
            | cons top r =>
              by_cases hpop : top.source.length ≤ top.processed
              · simp [hpop]
              · simp [hpop]
          simp only [List.length_cons]
          omega
  · split at h <;> (injection h with h'; rw [← h']; exact hle)
  · injection h with h'; rw [← h']; exact hle
  · split at h <;> (injection h with h'; rw [← h']; exact hle)
  · injection h with h'; rw [← h']; exact hle
  · injection h with h'; rw [← h']; exact hle
  · split at h <;> (injection h with h'; rw [← h']; exact hle)

theorem ppStep_depth {st st' : PPState E} (h : ppStep st = .next st')
    (hle : st.include_stack.length ≤ st.max_include_depth) :
    st'.include_stack.length ≤ st'.max_include_depth := by
  simp only [ppStep] at h
  split at h
  · exact StepOut.noConfusion h
  next inc rest heq =>
    split at h
    · injection h with h'
      rw [← h']
      rw [heq] at hle
      simp only [List.length_cons] at hle
      show rest.length ≤ st.max_include_depth
      omega
    next line inc' hnext =>
      refine ppProcessLine_depth h ?_
      rw [heq] at hle
      simpa using hle

/-- C4: (a) one loop iteration never grows the include stack beyond
`max_include_depth`; (b) a fresh preprocessor starts within the bound with
the default `max_include_depth = 64`; (c) processing an `include::`
directive while the stack already holds `max_include_depth` sources (and
skipping is off) makes `amalgamate` return `MaxIncludeDepthReached`. -/
theorem C4_include_depth_bounded {E : Type} :
    (∀ st st' : PPState E, ppStep st = .next st' →
      st.include_stack.length ≤ st.max_include_depth →
      st'.include_stack.length ≤ st'.max_include_depth) ∧
    (∀ (src : Str) (cb : AttrMap → Str → Except E Str) (attrs : AttrMap),
      (mkPreprocessor src cb attrs).max_include_depth = 64 ∧
      (mkPreprocessor src cb attrs).include_stack.length ≤
        (mkPreprocessor src cb attrs).max_include_depth) ∧
    (∀ (st : PPState E) (inc : Include) (rest : List Include) (line : Str)
       (inc' : Include) (tgt atts : Str) (fuel : Nat),
      st.include_stack = inc :: rest →
      nextLine? inc = some (line, inc') →
      parse_pp_directive line = some (.includeDir tgt atts) →
      st.skipping = false →
      st.max_include_depth ≤ st.include_stack.length →
      ppRun (fuel + 1) st = some (.error .maxIncludeDepthReached)) := by
  refine ⟨fun st st' h hle => ppStep_depth h hle,
    fun src cb attrs => ⟨rfl, by simp [mkPreprocessor]⟩,
    fun st inc rest line inc' tgt atts fuel hstack hnext hdir hskip hfull => ?_⟩
  refine ppRun_succ_fail ?_
  rw [ppStep_read hstack hnext]
  simp only [ppProcessLine, parse_doc_attrib, hdir, hskip]
  rw [if_neg Bool.false_ne_true]
  have hfull' : st.max_include_depth ≤ (inc' :: rest).length := by
    have : (inc' :: rest).length = (inc :: rest).length := by simp
    rw [this, ← hstack]
    exact hfull
  rw [if_pos hfull']

/-- Witness for C4: a pop step keeps the bound; a fresh preprocessor has
`max_include_depth = 64`; a full stack (here `max_include_depth = 1` with
one source) processing `include::a[]` fails with
`MaxIncludeDepthReached`. -/
theorem C4_include_depth_bounded_witness :
    ((⟨[], [], [], false, failCb, 64, []⟩ : PPState Unit).include_stack.length ≤
      (⟨[], [], [], false, failCb, 64, []⟩ : PPState Unit).max_include_depth) ∧
    (mkPreprocessor (str ("s")) failCb []).max_include_depth = 64 ∧
    ppRun 1 (⟨[], [⟨str ("include::a[]"), 0⟩], [], false, failCb, 1, []⟩ :
        PPState Unit) = some (.error .maxIncludeDepthReached) := by
  obtain ⟨hA, hB, hC⟩ := C4_include_depth_bounded (E := Unit)
  refine ⟨?_, (hB (str ("s")) failCb []).1, ?_⟩
  · exact hA ⟨[], [⟨str ("a"), 5⟩], [], false, failCb, 64, []⟩
      ⟨[], [], [], false, failCb, 64, []⟩ rfl (by decide)
  · exact hC ⟨[], [⟨str ("include::a[]"), 0⟩], [], false, failCb, 1, []⟩
      ⟨str ("include::a[]"), 0⟩ [] (str ("include::a[]"))
      ⟨str ("include::a[]"), 13⟩ (str ("a")) [] 0 rfl rfl rfl rfl (by decide)

/-! ## C10 — unmatched `endif::` -/

/-- C10: on a line recognised as `endif::` while the conditional stack is
empty, the loop performs a silent no-op: no error, nothing emitted, and
the skipping flag, conditional stack, attribute map and the rest of the
state unchanged (only the read cursor of the top include advances).
Additionally, a whole-document run on `"endif::[]\nx"` succeeds with
output `"x"`: the unmatched `endif::` line is simply dropped. -/
theorem C10_unmatched_endif_noop {E : Type} :
    (∀ (acc : Str) (inc : Include) (stk : List Include) (skp : Bool)
       (cb : AttrMap → Str → Except E Str) (maxd : Nat) (attrs : AttrMap)
       (line : Str) (inc' : Include) (tgs : Str),
      nextLine? inc = some (line, inc') →
      parse_pp_directive line = some (.endIf tgs) →
      ppStep ⟨acc, inc :: stk, [], skp, cb, maxd, attrs⟩ =
        .next ⟨acc, inc' :: stk, [], skp, cb, maxd, attrs⟩) ∧
    amalgamate 4 (str ("endif::[]\nx")) failCb [] = some (.ok (str ("x"))) := by
  constructor
  · intro acc inc stk skp cb maxd attrs line inc' tgs hnext hdir
    rw [ppStep_read rfl hnext]
    simp only [ppProcessLine, parse_doc_attrib, hdir]
  · rfl

/-- Witness for C10 on the concrete line `"endif::[]"` with skipping on
and a non-empty include tail. -/
theorem C10_unmatched_endif_noop_witness :
    ppStep (⟨str ("pre"), [⟨str ("endif::[]"), 0⟩, ⟨str ("t"), 0⟩], [], true,
        failCb, 64, [(str ("k"), str ("v"))]⟩ : PPState Unit) =
      .next ⟨str ("pre"), [⟨str ("endif::[]"), 10⟩, ⟨str ("t"), 0⟩], [], true,
        failCb, 64, [(str ("k"), str ("v"))]⟩ :=
  (C10_unmatched_endif_noop (E := Unit)).1 (str ("pre")) ⟨str ("endif::[]"), 0⟩
    [⟨str ("t"), 0⟩] true failCb 64 [(str ("k"), str ("v"))] (str ("endif::[]"))
    ⟨str ("endif::[]"), 10⟩ [] rfl rfl

/-! ## Parsing constructed directive lines (for C5, C6) -/

theorem attr_list_concrete {body : Str} (hrb : ']' ∉ body) :
    attr_list ('[' :: (body ++ [']'])) = some body := by
  have hall : ∀ c ∈ body, (fun c => !(c == ']')) c = true := by
    intro c hc
    simp only [Bool.not_eq_true', beq_eq_false_iff_ne]
    exact fun hh => hrb (hh ▸ hc)
  have h1 : stripTag (str ("[")) ('[' :: (body ++ [']'])) = some (body ++ [']']) := rfl
  have hdw : (body ++ [']']).dropWhile (fun c => !(c == ']')) = [']'] := by
    rw [List.dropWhile_append_of_pos hall]
    rfl
  have htw : (body ++ [']']).takeWhile (fun c => !(c == ']')) = body := by
    rw [List.takeWhile_append_of_pos hall]
    simp
  simp only [attr_list, h1, hdw, htw]
  rfl

theorem dirTail1_concrete {X rest : Str} (hX : X ≠ []) (hXb : '[' ∉ X) :
    dirTail1 (X ++ '[' :: rest) =
      (attr_list ('[' :: rest)).map (fun a => (X, a)) := by
  have hall : ∀ c ∈ X, (fun c => !(c == '[')) c = true := by
    intro c hc
    simp only [Bool.not_eq_true', beq_eq_false_iff_ne]
    exact fun hh => hXb (hh ▸ hc)
  have htw : (X ++ '[' :: rest).takeWhile (fun c => !(c == '[')) = X := by
    rw [List.takeWhile_append_of_pos hall]
    simp
  have hdw : (X ++ '[' :: rest).dropWhile (fun c => !(c == '[')) = '[' :: rest := by
    rw [List.dropWhile_append_of_pos hall]
    simp
  simp only [dirTail1, htw, hdw, List.isEmpty_eq_true]
  rw [if_neg hX]

/-- Rust `parse_pp_directive` on a constructed inline `ifdef::` line. -/
theorem ppdir_ifdef_inline {X inl : Str} (hX : X ≠ []) (hXb : '[' ∉ X)
    (hinl : inl ≠ []) (hrb : ']' ∉ inl) :
    parse_pp_directive (str ("ifdef::") ++ (X ++ '[' :: (inl ++ [']']))) =
      some (.ifDef X (some inl)) := by
  have hhead : (str ("ifdef::") ++ (X ++ '[' :: (inl ++ [']']))).head? = some 'i' := rfl
  have hm1 : matchTag (str ("include::"))
      (str ("ifdef::") ++ (X ++ '[' :: (inl ++ [']']))) = false := rfl
  have hm2 : matchTag (str ("ifdef::"))
      (str ("ifdef::") ++ (X ++ '[' :: (inl ++ [']']))) = true := rfl
  have hdrop : (str ("ifdef::") ++ (X ++ '[' :: (inl ++ [']']))).drop 7 =
      X ++ '[' :: (inl ++ [']']) := rfl
  rw [parse_pp_directive, if_neg (by rw [hhead]; simp), hm1,
    if_neg Bool.false_ne_true, if_pos hm2, hdrop, dirTail1_concrete hX hXb,
    attr_list_concrete hrb]
  simp only [Option.map_some', ifdefInline, List.isEmpty_eq_true, if_neg hinl]

/-- Rust `parse_pp_directive` on a constructed inline `ifndef::` line. -/
theorem ppdir_ifndef_inline {X inl : Str} (hX : X ≠ []) (hXb : '[' ∉ X)
    (hinl : inl ≠ []) (hrb : ']' ∉ inl) :
    parse_pp_directive (str ("ifndef::") ++ (X ++ '[' :: (inl ++ [']']))) =
      some (.ifNotDef X (some inl)) := by
  have hhead : (str ("ifndef::") ++ (X ++ '[' :: (inl ++ [']']))).head? = some 'i' := rfl
  have hm1 : matchTag (str ("include::"))
      (str ("ifndef::") ++ (X ++ '[' :: (inl ++ [']']))) = false := rfl
  have hm2 : matchTag (str ("ifdef::"))
      (str ("ifndef::") ++ (X ++ '[' :: (inl ++ [']']))) = false := rfl
  have hm3 : matchTag (str ("ifndef::"))
      (str ("ifndef::") ++ (X ++ '[' :: (inl ++ [']']))) = true := rfl
  have hdrop : (str ("ifndef::") ++ (X ++ '[' :: (inl ++ [']']))).drop 8 =
      X ++ '[' :: (inl ++ [']']) := rfl
  rw [parse_pp_directive, if_neg (by rw [hhead]; simp), hm1,
    if_neg Bool.false_ne_true, hm2, if_neg Bool.false_ne_true, if_pos hm3,
    hdrop, dirTail1_concrete hX hXb, attr_list_concrete hrb]
  simp only [Option.map_some', ifdefInline, List.isEmpty_eq_true, if_neg hinl]

/-- Rust `parse_pp_directive` on a constructed block `ifdef::T[]` line. -/
theorem ppdir_ifdef_block {T : Str} (hT : T ≠ []) (hTb : '[' ∉ T) :
    parse_pp_directive (str ("ifdef::") ++ (T ++ '[' :: [']'])) =
      some (.ifDef T none) := by
  have hhead : (str ("ifdef::") ++ (T ++ '[' :: [']'])).head? = some 'i' := rfl
  have hm1 : matchTag (str ("include::"))
      (str ("ifdef::") ++ (T ++ '[' :: [']'])) = false := rfl
  have hm2 : matchTag (str ("ifdef::"))
      (str ("ifdef::") ++ (T ++ '[' :: [']'])) = true := rfl
  have hdrop : (str ("ifdef::") ++ (T ++ '[' :: [']'])).drop 7 =
      T ++ '[' :: [']'] := rfl
  have hal : attr_list ('[' :: [']']) = some [] :=
    attr_list_concrete (List.not_mem_nil _)
  rw [parse_pp_directive, if_neg (by rw [hhead]; simp), hm1,
    if_neg Bool.false_ne_true, if_pos hm2, hdrop,
    show (T ++ '[' :: [']'] : Str) = T ++ '[' :: ([] ++ [']']) from rfl,
    dirTail1_concrete hT hTb]
  rw [show ('[' :: ([] ++ [']']) : Str) = '[' :: [']'] from rfl, hal]
  rfl

/-- Rust `check_targets_active` on a plain attribute name (no `+`, no `,`). -/
theorem check_single {X : Str} (attrs : AttrMap) (hp : '+' ∉ X) (hc : ',' ∉ X) :
    check_targets_active X attrs = attrs.containsKey X := by
  have hfind : X.find? (fun c => c == '+' || c == ',') = none := by
    rw [List.find?_eq_none]
    intro x hx
    simp only [Bool.or_eq_true, beq_iff_eq, not_or]
    exact ⟨fun h => hp (h ▸ hx), fun h => hc (h ▸ hx)⟩
  rw [check_targets_active, hfind]

/-! ## C6 — inline conditionals -/

/-- Loop-body behaviour on an inline `ifdef::X[inl]` line: the inline text
is emitted iff the preprocessor is not skipping and `X` is present;
nothing else changes. -/
theorem ppProcessLine_ifdef_inline {E : Type} {st : PPState E} {X inl : Str}
    (hX : X ≠ []) (hXb : '[' ∉ X) (hp : '+' ∉ X) (hc : ',' ∉ X)
    (hinl : inl ≠ []) (hrb : ']' ∉ inl) :
    ppProcessLine (str ("ifdef::") ++ (X ++ '[' :: (inl ++ [']']))) st =
      .next { st with amalgamated :=
        (if !st.skipping && st.attribute_map.containsKey X then
          push_line st.amalgamated inl
        else st.amalgamated) } := by
  simp only [ppProcessLine, parse_doc_attrib,
    ppdir_ifdef_inline hX hXb hinl hrb, check_single st.attribute_map hp hc]
  by_cases hcond : (!st.skipping && st.attribute_map.containsKey X) = true
  · rw [if_pos hcond, if_pos hcond]
  · rw [if_neg hcond, if_neg hcond]

/-- Loop-body behaviour on an inline `ifndef::X[inl]` line: complementary
presence condition. -/
theorem ppProcessLine_ifndef_inline {E : Type} {st : PPState E} {X inl : Str}
    (hX : X ≠ []) (hXb : '[' ∉ X) (hp : '+' ∉ X) (hc : ',' ∉ X)
    (hinl : inl ≠ []) (hrb : ']' ∉ inl) :
    ppProcessLine (str ("ifndef::") ++ (X ++ '[' :: (inl ++ [']']))) st =
      .next { st with amalgamated :=
        (if !st.skipping && !(st.attribute_map.containsKey X) then
          push_line st.amalgamated inl
        else st.amalgamated) } := by
  simp only [ppProcessLine, parse_doc_attrib,
    ppdir_ifndef_inline hX hXb hinl hrb, check_single st.attribute_map hp hc]
  by_cases hcond : (!st.skipping && !(st.attribute_map.containsKey X)) = true
  · rw [if_pos hcond, if_pos hcond]
  · rw [if_neg hcond, if_neg hcond]

/-- Running the whole preprocessor on a single newline-free line whose
processing emits `out`. -/
theorem amalgamate_single_line {E : Type} (line out : Str)
    (cb : AttrMap → Str → Except E Str) (attrs : AttrMap)
    (hnl : '\n' ∉ line) (hcr : line.getLast? ≠ some '\r')
    (hproc : ppProcessLine line
        (⟨[], [⟨line, line.length + 1⟩], [], false, cb, 64, attrs⟩ : PPState E) =
      .next ⟨out, [⟨line, line.length + 1⟩], [], false, cb, 64, attrs⟩) :
    amalgamate 4 line cb attrs = some (.ok out.dropLast) := by
  obtain ⟨hnext, -⟩ :=
    nextLine_last (Nat.zero_le line.length) (List.drop_zero line) hnl hcr
  rw [Nat.zero_add] at hnext
  have hstep1 : ppStep (⟨[], [⟨line, 0⟩], [], false, cb, 64, attrs⟩ :
      PPState E) = .next ⟨out, [⟨line, line.length + 1⟩], [], false, cb, 64,
        attrs⟩ := by
    rw [ppStep_read rfl hnext]
    exact hproc
  have hstep2 : ppStep (⟨out, [⟨line, line.length + 1⟩], [], false, cb, 64,
      attrs⟩ : PPState E) = .next ⟨out, [], [], false, cb, 64, attrs⟩ :=
    ppStep_pop rfl (nextLine_none (Nat.lt_succ_self _))
  simp only [amalgamate, mkPreprocessor_eq]
  rw [show (4 : Nat) = 3 + 1 from rfl, ppRun_succ_next hstep1,
    show (3 : Nat) = 2 + 1 from rfl, ppRun_succ_next hstep2,
    show (2 : Nat) = 1 + 1 from rfl, ppRun_succ_done (ppStep_done rfl)]
  simp [Except.map]

theorem newline_not_mem_ifdef_line {tag X inl : Str} (htag : '\n' ∉ tag)
    (hXn : '\n' ∉ X) (hin : '\n' ∉ inl) :
    '\n' ∉ (tag ++ (X ++ '[' :: (inl ++ [']']))) := by
  intro hm
  rcases List.mem_append.mp hm with h | h
  · exact htag h
  rcases List.mem_append.mp h with h | h
  · exact hXn h
  rcases List.mem_cons.mp h with h | h
  · exact absurd h (by decide)
  rcases List.mem_append.mp h with h | h
  · exact hin h
  · rcases List.mem_singleton.mp h with h
    exact absurd h (by decide)

theorem ifdef_line_getLast {tag X inl : Str} :
    (tag ++ (X ++ '[' :: (inl ++ [']']))).getLast? = some ']' := by
  rw [show (tag ++ (X ++ '[' :: (inl ++ [']']))) =
      (tag ++ (X ++ '[' :: inl)) ++ [']'] by simp]
  exact List.getLast?_concat _

/-- C6: on a single inline conditional line `ifdef::X[inl]`, the loop body
emits exactly the inline text iff `X` is present in the attribute map and
the preprocessor is not currently skipping, and leaves every other piece
of state unchanged; `ifndef::X[inl]` does the same under the
complementary presence condition.  The last two conjuncts run the whole
preprocessor on the single-line document. -/
theorem C6_inline_conditionals {E : Type} :
    ∀ (st : PPState E) (cb : AttrMap → Str → Except E Str) (attrs : AttrMap)
      (X inl : Str),
      X ≠ [] → '[' ∉ X → '+' ∉ X → ',' ∉ X → '\n' ∉ X →
      inl ≠ [] → ']' ∉ inl → '\n' ∉ inl →
      (ppProcessLine (str ("ifdef::") ++ (X ++ '[' :: (inl ++ [']']))) st =
        .next { st with amalgamated :=
          (if !st.skipping && st.attribute_map.containsKey X then
            push_line st.amalgamated inl
          else st.amalgamated) }) ∧
      (ppProcessLine (str ("ifndef::") ++ (X ++ '[' :: (inl ++ [']']))) st =
        .next { st with amalgamated :=
          (if !st.skipping && !(st.attribute_map.containsKey X) then
            push_line st.amalgamated inl
          else st.amalgamated) }) ∧
      amalgamate 4 (str ("ifdef::") ++ (X ++ '[' :: (inl ++ [']']))) cb attrs =
        some (.ok (if attrs.containsKey X then inl else [])) ∧
      amalgamate 4 (str ("ifndef::") ++ (X ++ '[' :: (inl ++ [']']))) cb attrs =
        some (.ok (if attrs.containsKey X then [] else inl)) := by
  intro st cb attrs X inl hX hXb hp hc hXn hinl hrb hin
  refine ⟨ppProcessLine_ifdef_inline hX hXb hp hc hinl hrb,
          ppProcessLine_ifndef_inline hX hXb hp hc hinl hrb, ?_, ?_⟩
  · have hproc : ppProcessLine (str ("ifdef::") ++ (X ++ '[' :: (inl ++ [']'])))
        (⟨[], [⟨str ("ifdef::") ++ (X ++ '[' :: (inl ++ [']'])),
            (str ("ifdef::") ++ (X ++ '[' :: (inl ++ [']']))).length + 1⟩],
          [], false, cb, 64, attrs⟩ : PPState E) =
        .next ⟨(if attrs.containsKey X then push_line [] inl else []),
          [⟨str ("ifdef::") ++ (X ++ '[' :: (inl ++ [']'])),
            (str ("ifdef::") ++ (X ++ '[' :: (inl ++ [']']))).length + 1⟩],
          [], false, cb, 64, attrs⟩ :=
      ppProcessLine_ifdef_inline hX hXb hp hc hinl hrb
    have hrun := amalgamate_single_line _ _ cb attrs
      (newline_not_mem_ifdef_line (by decide) hXn hin)
      (by rw [show (str ("ifdef::") ++ (X ++ '[' :: (inl ++ [']']))).getLast? =
          some ']' from ifdef_line_getLast]; decide)
      hproc
    rw [hrun]
    by_cases hk : attrs.containsKey X = true
    · simp [hk, push_line, List.dropLast_concat]
    · simp [hk]
  · have hproc : ppProcessLine (str ("ifndef::") ++ (X ++ '[' :: (inl ++ [']'])))
        (⟨[], [⟨str ("ifndef::") ++ (X ++ '[' :: (inl ++ [']'])),
            (str ("ifndef::") ++ (X ++ '[' :: (inl ++ [']']))).length + 1⟩],
          [], false, cb, 64, attrs⟩ : PPState E) =
        .next ⟨(if !(attrs.containsKey X) then push_line [] inl else []),
          [⟨str ("ifndef::") ++ (X ++ '[' :: (inl ++ [']'])),
            (str ("ifndef::") ++ (X ++ '[' :: (inl ++ [']']))).length + 1⟩],
          [], false, cb, 64, attrs⟩ :=
      ppProcessLine_ifndef_inline hX hXb hp hc hinl hrb
    have hrun := amalgamate_single_line _ _ cb attrs
      (newline_not_mem_ifdef_line (by decide) hXn hin)
      (by rw [show (str ("ifndef::") ++ (X ++ '[' :: (inl ++ [']']))).getLast? =
          some ']' from ifdef_line_getLast]; decide)
      hproc
    rw [hrun]
    by_cases hk : attrs.containsKey X = true
    · simp [hk]
    · simp [hk, push_line, List.dropLast_concat]

/-- Witness for C6: the repository's own inline fixtures —
`ifdef::foo[hello]` emits `hello` with `{foo}` and nothing without. -/
theorem C6_inline_conditionals_witness :
    amalgamate 4 (str ("ifdef::") ++ (str ("foo") ++ '[' :: (str ("hello") ++ [']'])))
      failCb [(str ("foo"), str (""))] = some (.ok (str ("hello"))) ∧
    amalgamate 4 (str ("ifdef::") ++ (str ("foo") ++ '[' :: (str ("hello") ++ [']'])))
      failCb [] = some (.ok []) := by
  have h1 := (C6_inline_conditionals (E := Unit) (mkPreprocessor [] failCb [])
    failCb [(str ("foo"), str (""))] (str ("foo")) (str ("hello")) (by decide)
    (by decide) (by decide) (by decide) (by decide) (by decide) (by decide)
    (by decide)).2.2.1
  have h2 := (C6_inline_conditionals (E := Unit) (mkPreprocessor [] failCb [])
    failCb [] (str ("foo")) (str ("hello")) (by decide) (by decide) (by decide)
    (by decide) (by decide) (by decide) (by decide) (by decide)).2.2.1
  exact ⟨h1.trans (by rfl), h2.trans (by rfl)⟩

/-! ## C5 — block conditionals -/

/-- Loop-body behaviour on a block `ifdef::T[]` line: push a conditional
frame and fold the activity test into the skipping flag. -/
theorem ppProcessLine_ifdef_block {E : Type} {st : PPState E} {T : Str}
    (hT : T ≠ []) (hTb : '[' ∉ T) :
    ppProcessLine (str ("ifdef::") ++ (T ++ '[' :: [']'])) st =
      .next { st with
        conditional_stack :=
          (T, !st.skipping && !check_targets_active T st.attribute_map) ::
            st.conditional_stack,
        skipping := st.skipping || !check_targets_active T st.attribute_map } := by
  simp only [ppProcessLine, parse_doc_attrib, ppdir_ifdef_block hT hTb]

/-- Loop-body behaviour on a line recognised as `endif::` with a
conditional frame on the stack: pop it, clearing the skipping flag when
that frame set it. -/
theorem ppProcessLine_endif_cons {E : Type} {line tgs : Str} {st : PPState E}
    {d : Str × Bool} {ds : List (Str × Bool)}
    (hdir : parse_pp_directive line = some (.endIf tgs))
    (hc : st.conditional_stack = d :: ds) :
    ppProcessLine line st =
      .next { st with conditional_stack := ds,
                      skipping := (if d.2 then false else st.skipping) } := by
  simp only [ppProcessLine, parse_doc_attrib, hdir, hc]

/-- Loop-body behaviour on a non-directive line for any skipping state. -/
theorem ppProcessLine_verbatim {E : Type} {line : Str} {st : PPState E}
    (hdir : parse_pp_directive line = none) :
    ppProcessLine line st =
      .next { st with amalgamated :=
        (if st.skipping then st.amalgamated
         else push_line st.amalgamated line) } := by
  simp only [ppProcessLine, parse_doc_attrib, hdir]
  by_cases h : st.skipping = true
  · rw [if_pos h, if_pos h]
  · rw [if_neg h, if_neg h]

/-- The three-line block-conditional document
`ifdef::T[]\n<body>\nendif::[]`: the body is emitted iff the target
expression is active. -/
theorem amalgamate_ifdef_block {E : Type} (T body : Str)
    (cb : AttrMap → Str → Except E Str) (attrs : AttrMap)
    (hT : T ≠ []) (hTb : '[' ∉ T) (hTn : '\n' ∉ T)
    (hbd : parse_pp_directive body = none) (hbn : '\n' ∉ body)
    (hbc : body.getLast? ≠ some '\r') :
    amalgamate 6 ((str ("ifdef::") ++ (T ++ '[' :: [']'])) ++
        '\n' :: (body ++ '\n' :: str ("endif::[]"))) cb attrs =
      some (.ok (if check_targets_active T attrs then body else [])) := by
  set L1 : Str := str ("ifdef::") ++ (T ++ '[' :: [']']) with hL1
  set src : Str := L1 ++ '\n' :: (body ++ '\n' :: str ("endif::[]")) with hsrc
  have hL1n : '\n' ∉ L1 := by
    intro hm
    rcases List.mem_append.mp hm with h | h
    · exact absurd h (by decide)
    rcases List.mem_append.mp h with h | h
    · exact hTn h
    · exact absurd h (by decide)
  have hL1cr : L1.getLast? ≠ some '\r' := by
    rw [show L1.getLast? = some ']' from @ifdef_line_getLast (str ("ifdef::")) T []]
    decide
  have h0 : src.drop 0 = L1 ++ '\n' :: (body ++ '\n' :: str ("endif::[]")) :=
    List.drop_zero _
  have hnext1 := nextLine_mid h0 hL1n hL1cr
  rw [Nat.zero_add] at hnext1
  have h1 : src.drop (L1.length + 1) = body ++ '\n' :: str ("endif::[]") := by
    have := drop_after_line h0
    rwa [Nat.zero_add] at this
  have hnext2 := nextLine_mid h1 hbn hbc
  have h2 : src.drop (L1.length + 1 + body.length + 1) = str ("endif::[]") := by
    have := drop_after_line h1
    rwa [show L1.length + 1 + body.length + 1 = L1.length + 1 + (body.length + 1)
      by omega] at this
  have hlen2 : (src.drop (L1.length + 1 + body.length + 1)).length = 9 := by
    rw [h2]
    rfl
  have hple2 : L1.length + 1 + body.length + 1 ≤ src.length := by
    rw [List.length_drop] at hlen2
    omega
  obtain ⟨hnext3, hpast3⟩ := nextLine_last hple2 h2 (by decide) (by decide)
  have hdir3 : parse_pp_directive (str ("endif::[]")) = some (.endIf []) := rfl
  by_cases hchk : check_targets_active T attrs = true
  · have hstep1 : ppStep (⟨[], [⟨src, 0⟩], [], false, cb, 64, attrs⟩ :
        PPState E) = .next ⟨[], [⟨src, L1.length + 1⟩], [(T, false)], false,
          cb, 64, attrs⟩ := by
      rw [ppStep_read rfl hnext1, ppProcessLine_ifdef_block hT hTb]
      simp [hchk]
    have hstep2 : ppStep (⟨[], [⟨src, L1.length + 1⟩], [(T, false)], false,
        cb, 64, attrs⟩ : PPState E) =
        .next ⟨push_line [] body, [⟨src, L1.length + 1 + body.length + 1⟩],
          [(T, false)], false, cb, 64, attrs⟩ := by
      rw [ppStep_read rfl hnext2, ppProcessLine_verbatim hbd]
      rfl
    have hstep3 : ppStep (⟨push_line [] body,
        [⟨src, L1.length + 1 + body.length + 1⟩], [(T, false)], false, cb, 64,
        attrs⟩ : PPState E) =
        .next ⟨push_line [] body,
          [⟨src, L1.length + 1 + body.length + 1 + 9 + 1⟩], [], false, cb, 64,
          attrs⟩ := by
      rw [ppStep_read rfl hnext3, ppProcessLine_endif_cons hdir3 rfl]
      rfl
    have hstep4 : ppStep (⟨push_line [] body,
        [⟨src, L1.length + 1 + body.length + 1 + 9 + 1⟩], [], false, cb, 64,
        attrs⟩ : PPState E) =
        .next ⟨push_line [] body, [], [], false, cb, 64, attrs⟩ :=
      ppStep_pop rfl (nextLine_none (by
        have : (9 : Nat) = (str ("endif::[]")).length := rfl
        omega))
    simp only [amalgamate, mkPreprocessor_eq]
    rw [show (6 : Nat) = 5 + 1 from rfl, ppRun_succ_next hstep1,
      show (5 : Nat) = 4 + 1 from rfl, ppRun_succ_next hstep2,
      show (4 : Nat) = 3 + 1 from rfl, ppRun_succ_next hstep3,
      show (3 : Nat) = 2 + 1 from rfl, ppRun_succ_next hstep4,
      show (2 : Nat) = 1 + 1 from rfl, ppRun_succ_done (ppStep_done rfl)]
    rw [if_pos hchk]
    simp [Except.map, push_line, List.dropLast_concat]
  · have hchk' : check_targets_active T attrs = false :=
      Bool.not_eq_true _ ▸ (Bool.eq_false_iff.mpr hchk)
    have hstep1 : ppStep (⟨[], [⟨src, 0⟩], [], false, cb, 64, attrs⟩ :
        PPState E) = .next ⟨[], [⟨src, L1.length + 1⟩], [(T, true)], true,
          cb, 64, attrs⟩ := by
      rw [ppStep_read rfl hnext1, ppProcessLine_ifdef_block hT hTb]
      simp [hchk']
    have hstep2 : ppStep (⟨[], [⟨src, L1.length + 1⟩], [(T, true)], true,
        cb, 64, attrs⟩ : PPState E) =
        .next ⟨[], [⟨src, L1.length + 1 + body.length + 1⟩], [(T, true)], true,
          cb, 64, attrs⟩ := by
      rw [ppStep_read rfl hnext2, ppProcessLine_verbatim hbd]
      rfl
    have hstep3 : ppStep (⟨[], [⟨src, L1.length + 1 + body.length + 1⟩],
        [(T, true)], true, cb, 64, attrs⟩ : PPState E) =
        .next ⟨[], [⟨src, L1.length + 1 + body.length + 1 + 9 + 1⟩], [], false,
          cb, 64, attrs⟩ := by
      rw [ppStep_read rfl hnext3, ppProcessLine_endif_cons hdir3 rfl]
      rfl
    have hstep4 : ppStep (⟨[], [⟨src, L1.length + 1 + body.length + 1 + 9 + 1⟩],
        [], false, cb, 64, attrs⟩ : PPState E) =
        .next ⟨[], [], [], false, cb, 64, attrs⟩ :=
      ppStep_pop rfl (nextLine_none (by
        have : (9 : Nat) = (str ("endif::[]")).length := rfl
        omega))
    simp only [amalgamate, mkPreprocessor_eq]
    rw [show (6 : Nat) = 5 + 1 from rfl, ppRun_succ_next hstep1,
      show (5 : Nat) = 4 + 1 from rfl, ppRun_succ_next hstep2,
      show (4 : Nat) = 3 + 1 from rfl, ppRun_succ_next hstep3,
      show (3 : Nat) = 2 + 1 from rfl, ppRun_succ_next hstep4,
      show (2 : Nat) = 1 + 1 from rfl, ppRun_succ_done (ppStep_done rfl)]
    rw [if_neg (by rw [hchk']; exact Bool.false_ne_true)]
    simp [Except.map]

theorem find?_append_mid {p : Char → Bool} {A B : Str} {x : Char}
    (hA : ∀ a ∈ A, p a = false) (hx : p x = true) :
    (A ++ x :: B).find? p = some x := by
  induction A with
  | nil => simp [List.find?_cons, hx]
  | cons a as ih =>
    have ha : p a = false := hA a (List.mem_cons_self _ _)
    simp only [List.cons_append, List.find?_cons, ha]
    exact ih (fun b hb => hA b (List.mem_cons_of_mem _ hb))

theorem splitOnChar_not_mem {c : Char} {A : Str} (h : c ∉ A) :
    splitOnChar c A = [A] := by
  induction A with
  | nil => rfl
  | cons a as ih =>
    have ha : ¬ a = c := fun hh => h (hh ▸ List.mem_cons_self _ _)
    have has : c ∉ as := fun hh => h (List.mem_cons_of_mem _ hh)
    simp only [splitOnChar, if_neg ha, ih has]

theorem splitOnChar_mid {c : Char} {A B : Str} (hA : c ∉ A) (hB : c ∉ B) :
    splitOnChar c (A ++ c :: B) = [A, B] := by
  induction A with
  | nil => simp [splitOnChar, splitOnChar_not_mem hB]
  | cons a as ih =>
    have ha : ¬ a = c := fun hh => hA (hh ▸ List.mem_cons_self _ _)
    have has : c ∉ as := fun hh => hA (List.mem_cons_of_mem _ hh)
    simp only [List.cons_append, splitOnChar, if_neg ha, List.append_eq, ih has]

/-- Rust `check_targets_active` on an AND expression `A+B`. -/
theorem check_and {A B : Str} (attrs : AttrMap)
    (hAp : '+' ∉ A) (hAc : ',' ∉ A) (hBp : '+' ∉ B) (hBc : ',' ∉ B) :
    check_targets_active (A ++ '+' :: B) attrs =
      (attrs.containsKey A && attrs.containsKey B) := by
  have hfind : (A ++ '+' :: B).find? (fun c => c == '+' || c == ',') =
      some '+' := by
    refine find?_append_mid ?_ (by decide)
    intro a ha
    simp only [Bool.or_eq_false_iff, beq_eq_false_iff_ne]
    exact ⟨fun hh => hAp (hh ▸ ha), fun hh => hAc (hh ▸ ha)⟩
  rw [check_targets_active, hfind]
  simp [splitOnChar_mid hAp hBp]

/-- Rust `check_targets_active` on an OR expression `A,B`. -/
theorem check_or {A B : Str} (attrs : AttrMap)
    (hAp : '+' ∉ A) (hAc : ',' ∉ A) (hBp : '+' ∉ B) (hBc : ',' ∉ B) :
    check_targets_active (A ++ ',' :: B) attrs =
      (attrs.containsKey A || attrs.containsKey B) := by
  have hfind : (A ++ ',' :: B).find? (fun c => c == '+' || c == ',') =
      some ',' := by
    refine find?_append_mid ?_ (by decide)
    intro a ha
    simp only [Bool.or_eq_false_iff, beq_eq_false_iff_ne]
    exact ⟨fun hh => hAp (hh ▸ ha), fun hh => hAc (hh ▸ ha)⟩
  rw [check_targets_active, hfind]
  simp [splitOnChar_mid hAc hBc]

/-- C5: the block conditional `ifdef::A+B[]` emits its guarded body iff
both `A` and `B` are present in the attribute map, and `ifdef::A,B[]`
emits it iff at least one of them is present. -/
theorem C5_ifdef_and_or {E : Type} :
    ∀ (A B body : Str) (cb : AttrMap → Str → Except E Str) (attrs : AttrMap),
      A ≠ [] → '[' ∉ A → '+' ∉ A → ',' ∉ A → '\n' ∉ A →
      B ≠ [] → '[' ∉ B → '+' ∉ B → ',' ∉ B → '\n' ∉ B →
      parse_pp_directive body = none → '\n' ∉ body →
      body.getLast? ≠ some '\r' →
      (amalgamate 6 ((str ("ifdef::") ++ ((A ++ '+' :: B) ++ '[' :: [']'])) ++
          '\n' :: (body ++ '\n' :: str ("endif::[]"))) cb attrs =
        some (.ok (if attrs.containsKey A && attrs.containsKey B then body
                   else []))) ∧
      (amalgamate 6 ((str ("ifdef::") ++ ((A ++ ',' :: B) ++ '[' :: [']'])) ++
          '\n' :: (body ++ '\n' :: str ("endif::[]"))) cb attrs =
        some (.ok (if attrs.containsKey A || attrs.containsKey B then body
                   else []))) := by
  intro A B body cb attrs hAne hAb hAp hAc hAn hBne hBb hBp hBc hBn hbd hbn hbc
  constructor
  · have hTne : A ++ '+' :: B ≠ [] := by
      cases A <;> simp
    have hTb : '[' ∉ A ++ '+' :: B := by
      intro hm
      rcases List.mem_append.mp hm with h | h
      · exact hAb h
      rcases List.mem_cons.mp h with h | h
      · exact absurd h (by decide)
      · exact hBb h
    have hTn : '\n' ∉ A ++ '+' :: B := by
      intro hm
      rcases List.mem_append.mp hm with h | h
      · exact hAn h
      rcases List.mem_cons.mp h with h | h
      · exact absurd h (by decide)
      · exact hBn h
    have h1 := amalgamate_ifdef_block (A ++ '+' :: B) body cb attrs hTne hTb
      hTn hbd hbn hbc
    rwa [check_and attrs hAp hAc hBp hBc] at h1
  · have hTne : A ++ ',' :: B ≠ [] := by
      cases A <;> simp
    have hTb : '[' ∉ A ++ ',' :: B := by
      intro hm
      rcases List.mem_append.mp hm with h | h
      · exact hAb h
      rcases List.mem_cons.mp h with h | h
      · exact absurd h (by decide)
      · exact hBb h
    have hTn : '\n' ∉ A ++ ',' :: B := by
      intro hm
      rcases List.mem_append.mp hm with h | h
      · exact hAn h
      rcases List.mem_cons.mp h with h | h
      · exact absurd h (by decide)
      · exact hBn h
    have h1 := amalgamate_ifdef_block (A ++ ',' :: B) body cb attrs hTne hTb
      hTn hbd hbn hbc
    rwa [check_or attrs hAp hAc hBp hBc] at h1

/-- Witness for C5 with `A = flip`, `B = flap`, body `nice`: the AND form
emits with both attributes set and not with only one; the OR form emits
with only one set. -/
theorem C5_ifdef_and_or_witness :
    amalgamate 6 ((str ("ifdef::") ++ ((str ("flip") ++ '+' :: str ("flap")) ++
        '[' :: [']'])) ++ '\n' :: (str ("nice") ++ '\n' :: str ("endif::[]")))
      failCb [(str ("flip"), str ("")), (str ("flap"), str (""))] =
      some (.ok (str ("nice"))) ∧
    amalgamate 6 ((str ("ifdef::") ++ ((str ("flip") ++ '+' :: str ("flap")) ++
        '[' :: [']'])) ++ '\n' :: (str ("nice") ++ '\n' :: str ("endif::[]")))
      failCb [(str ("flip"), str (""))] = some (.ok []) ∧
    amalgamate 6 ((str ("ifdef::") ++ ((str ("flip") ++ ',' :: str ("flap")) ++
        '[' :: [']'])) ++ '\n' :: (str ("nice") ++ '\n' :: str ("endif::[]")))
      failCb [(str ("flip"), str (""))] = some (.ok (str ("nice"))) := by
  have h1 := (C5_ifdef_and_or (E := Unit) (str ("flip")) (str ("flap"))
    (str ("nice")) failCb [(str ("flip"), str ("")), (str ("flap"), str (""))]
    (by decide) (by decide) (by decide) (by decide) (by decide) (by decide)
    (by decide) (by decide) (by decide) (by decide) (by decide) (by decide)
    (by decide)).1
  have h2 := (C5_ifdef_and_or (E := Unit) (str ("flip")) (str ("flap"))
    (str ("nice")) failCb [(str ("flip"), str (""))]
    (by decide) (by decide) (by decide) (by decide) (by decide) (by decide)
    (by decide) (by decide) (by decide) (by decide) (by decide) (by decide)
    (by decide)).1
  have h3 := (C5_ifdef_and_or (E := Unit) (str ("flip")) (str ("flap"))
    (str ("nice")) failCb [(str ("flip"), str (""))]
    (by decide) (by decide) (by decide) (by decide) (by decide) (by decide)
    (by decide) (by decide) (by decide) (by decide) (by decide) (by decide)
    (by decide)).2
  exact ⟨h1.trans (by rfl), h2.trans (by rfl), h3.trans (by rfl)⟩

/-! ## C9 — section titles, amended -/

theorem takeEqs_exact : ∀ (n : Nat) (rest : Str),
    takeEqs n (List.replicate n '=' ++ rest) = (n, rest) := by
  intro n
  induction n with
  | zero => intro rest; rfl
  | succ m ih =>
    intro rest
    simp only [List.replicate_succ, List.cons_append, takeEqs, if_pos rfl, ih,
      if_true]

theorem takeEqs_lt : ∀ (k n : Nat) (rest : Str), k < n →
    rest.head? ≠ some '=' →
    takeEqs n (List.replicate k '=' ++ rest) = (k, rest) := by
  intro k
  induction k with
  | zero =>
    intro n rest hk hh
    cases n with
    | zero => omega
    | succ m =>
      cases rest with
      | nil => rfl
      | cons r rs =>
        have hr : ¬ r = '=' := fun h2 => hh (by rw [h2]; rfl)
        simp [takeEqs, if_neg hr]
  | succ j ih =>
    intro n rest hk hh
    cases n with
    | zero => omega
    | succ m =>
      simp only [List.replicate_succ, List.cons_append, takeEqs, if_pos rfl,
        ih m rest (by omega) hh, if_true]

theorem dropWhile_concat_tail {p : Char → Bool} {c : Char} (hc : p c = false)
    (A : Str) : (A ++ [c]).dropWhile p = A.dropWhile p ++ [c] := by
  induction A with
  | nil => simp [List.dropWhile_cons, hc]
  | cons a as ih =>
    by_cases ha : p a = true
    · simp only [List.cons_append, List.dropWhile_cons, ha, if_pos rfl, ih,
        if_true]
    · have ha' : p a = false := Bool.eq_false_iff.mpr ha
      simp only [List.cons_append, List.dropWhile_cons, ha']
      simp

theorem takeUntilNl_concat {A : Str} (h : '\n' ∉ A) :
    takeUntilNl (A ++ ['\n']) = some (A, ['\n']) := by
  have hall : ∀ c ∈ A, (fun c => !(c == '\n')) c = true := by
    intro c hc
    simp only [Bool.not_eq_true', beq_eq_false_iff_ne]
    exact fun hh => h (hh ▸ hc)
  simp only [takeUntilNl, List.dropWhile_append_of_pos hall,
    List.takeWhile_append_of_pos hall]
  simp

/-- C9, amended: a newline-terminated line starting with `k ∈ [1,6]`
equals-signs parses with `level = k − 1` and content the rest of the line
after the equals-signs and any horizontal whitespace; but a line starting
with **seven** equals-signs is *not* a parse error — `fold_many_m_n`
stops after six matches, giving level 5 with the seventh `'='` left at
the head of the content (see `C9_counterexample`). -/
theorem C9_section_title (k : Nat) (rest : Str) (h1 : 1 ≤ k) (h6 : k ≤ 6)
    (hnl : '\n' ∉ rest) (hhead : rest.head? ≠ some '=') :
    parse_section_title (List.replicate k '=' ++ (rest ++ ['\n'])) =
      some (⟨k - 1, rest.dropWhile hwsB⟩, []) ∧
    parse_section_title (List.replicate 7 '=' ++ (rest ++ ['\n'])) =
      some (⟨5, '=' :: rest⟩, []) := by
  have hwsdrop : (rest ++ ['\n']).dropWhile hwsB =
      rest.dropWhile hwsB ++ ['\n'] := dropWhile_concat_tail (by decide) rest
  have hnodrop : '\n' ∉ rest.dropWhile hwsB :=
    fun hm => hnl (List.dropWhile_subset _ hm)
  constructor
  · have hcount : takeEqs 6 (List.replicate k '=' ++ (rest ++ ['\n'])) =
        (k, rest ++ ['\n']) := by
      rcases Nat.lt_or_ge k 6 with hlt | hge
      · refine takeEqs_lt k 6 _ hlt ?_
        cases rest with
        | nil => simp
        | cons r rs =>
          intro hh
          exact hhead (by simpa using hh)
      · have hk6 : k = 6 := by omega
        subst hk6
        exact takeEqs_exact 6 _
    rw [parse_section_title, hcount]
    simp only
    rw [if_neg (by omega), hwsdrop, takeUntilNl_concat hnodrop]
    rfl
  · have h7 : List.replicate 7 '=' ++ (rest ++ ['\n']) =
        List.replicate 6 '=' ++ ('=' :: (rest ++ ['\n'])) := by
      rw [show (7 : Nat) = 6 + 1 from rfl, List.replicate_succ',
        List.append_assoc]
      rfl
    have hcount : takeEqs 6 (List.replicate 7 '=' ++ (rest ++ ['\n'])) =
        (6, '=' :: (rest ++ ['\n'])) := by
      rw [h7]
      exact takeEqs_exact 6 _
    rw [parse_section_title, hcount]
    simp only
    rw [if_neg (by omega),
      List.dropWhile_cons_of_neg (by decide : ¬ hwsB '=' = true),
      show ('=' :: (rest ++ ['\n']) : Str) = ('=' :: rest) ++ ['\n'] from rfl,
      takeUntilNl_concat (by
        intro hm
        rcases List.mem_cons.mp hm with h | h
        · exact absurd h (by decide)
        · exact hnl h)]
    rfl

/-- Witness for C9 at `"==  title\n"` (level 1) and `"=======x\n"`
(level 5, not an error). -/
theorem C9_section_title_witness :
    parse_section_title (List.replicate 2 '=' ++ (str ("  title") ++ ['\n'])) =
      some (⟨1, str ("title")⟩, []) ∧
    parse_section_title (List.replicate 7 '=' ++ (str ("x") ++ ['\n'])) =
      some (⟨5, '=' :: str ("x")⟩, []) := by
  have h := C9_section_title 2 (str ("  title")) (by decide) (by decide)
    (by decide) (by decide)
  have h2 := C9_section_title 1 (str ("x")) (by decide) (by decide) (by decide)
    (by decide)
  exact ⟨h.1.trans (by rfl), h2.2⟩
